import Mathlib

/-!
Verification of the ranked-index engine of the MSCS532 repository:
the AVL-based OrderedIndex (`optimized_avl_tree.py`), the heap-backed
RankedLeaderboard (`optimized_leaderboard.py`), and the cached IndexedStore
(`optimized_hash_table.py`).  Python floats are modelled as exact rationals,
Python dicts/ordered dicts as association lists in insertion order, and
Python sets as duplicate-free lists.
-/

namespace MSCS532

/-! ## OrderedIndex: AVL tree (`optimized_avl_tree.py`, class `OptimizedAVLTree`)

A node stores `(value, horse_id, left, right, height)`; `AVL.leaf` plays the
role of Python's `None`. -/

inductive AVL where
  | leaf : AVL
  | node (value : ℚ) (horseId : String) (left : AVL) (right : AVL) (height : ℕ) : AVL
deriving DecidableEq, Repr

/-- `_get_height`: the stored height field, `0` for `None`. -/
def getHeight : AVL → ℕ
  | .leaf => 0
  | .node _ _ _ _ h => h

/-- Value at the root (`node.value`); `0` is a junk value for the `None` case,
which the source only dereferences under guards that exclude it. -/
def getValue : AVL → ℚ
  | .leaf => 0
  | .node v _ _ _ _ => v

/-- `_get_balance`: stored height of left child minus stored height of right child. -/
def getBalance : AVL → ℤ
  | .leaf => 0
  | .node _ _ l r _ => (getHeight l : ℤ) - (getHeight r : ℤ)

/-- `_left_rotate(z)`: `y = z.right; T2 = y.left; y.left = z; z.right = T2`,
then recompute `z.height`, then `y.height`.  The fallback branch is
unreachable in the source (rotation is only invoked on a right-heavy node). -/
def leftRotate : AVL → AVL
  | .node zv zid zl (.node yv yid yl yr _) _ =>
      let z := AVL.node zv zid zl yl (1 + max (getHeight zl) (getHeight yl))
      AVL.node yv yid z yr (1 + max (getHeight z) (getHeight yr))
  | t => t

/-- `_right_rotate(z)`: `y = z.left; T3 = y.right; y.right = z; z.left = T3`,
then recompute `z.height`, then `y.height`. -/
def rightRotate : AVL → AVL
  | .node zv zid (.node yv yid yl yr _) zr _ =>
      let z := AVL.node zv zid yr zr (1 + max (getHeight yr) (getHeight zr))
      AVL.node yv yid yl z (1 + max (getHeight yl) (getHeight z))
  | t => t

/-- The tail of `_insert_node` shared by both recursive branches: update the
height field, compute the balance factor, and apply the four rotation cases,
whose guards compare the inserted `value` with the child values. -/
def insertFix (v : ℚ) : AVL → AVL
  | .leaf => .leaf
  | .node nv nid l r _ =>
    let n := AVL.node nv nid l r (1 + max (getHeight l) (getHeight r))
    let b := getBalance n
    if 1 < b ∧ v < getValue l then rightRotate n
    else if b < -1 ∧ getValue r < v then leftRotate n
    else if 1 < b ∧ getValue l < v then
      rightRotate (AVL.node nv nid (leftRotate l) r (1 + max (getHeight l) (getHeight r)))
    else if b < -1 ∧ v < getValue r then
      leftRotate (AVL.node nv nid l (rightRotate r) (1 + max (getHeight l) (getHeight r)))
    else n

/-- `OptimizedAVLTree._insert_node`.  Equal values update `horse_id` in place
and return without touching heights or balance. -/
def insertNode (t : AVL) (v : ℚ) (hid : String) : AVL :=
  match t with
  | .leaf => .node v hid .leaf .leaf 1
  | .node nv nid l r h =>
    if v < nv then insertFix v (.node nv nid (insertNode l v hid) r h)
    else if nv < v then insertFix v (.node nv nid l (insertNode r v hid) h)
    else .node nv hid l r h

/-- A tree built by a sequence of `insert(horse_id, value)` calls on an
initially empty tree. -/
def buildTree (ops : List (String × ℚ)) : AVL :=
  ops.foldl (fun t p => insertNode t p.2 p.1) .leaf

/-- `_count_nodes`. -/
def treeSize : AVL → ℕ
  | .leaf => 0
  | .node _ _ l r _ => 1 + treeSize l + treeSize r

/-- `_inorder_traversal`, projected to the `(horse_id, value)` data that
`get_kth_smallest` reads off the visited nodes. -/
def inorder : AVL → List (String × ℚ)
  | .leaf => []
  | .node v hid l r _ => inorder l ++ [(hid, v)] ++ inorder r

/-- `_range_query`: the current node is appended first when in range, then the
left subtree is visited (only when `min_val < node.value`), then the right
subtree (only when `node.value < max_val`). -/
def rangeQuery (t : AVL) (lo hi : ℚ) : List (String × ℚ) :=
  match t with
  | .leaf => []
  | .node v hid l r _ =>
    (if lo ≤ v ∧ v ≤ hi then [(hid, v)] else []) ++
    (if lo < v then rangeQuery l lo hi else []) ++
    (if v < hi then rangeQuery r lo hi else [])

/-- `get_kth_smallest(k)` (1-indexed, `k` a Python `int`): `None` for `k <= 0`,
the `k`-th node of the inorder traversal when `k <= len(result)`, else `None`. -/
def getKthSmallest (t : AVL) (k : ℤ) : Option (String × ℚ) :=
  if k ≤ 0 then none
  else
    let result := inorder t
    if k ≤ (result.length : ℤ) then result.get? (k.toNat - 1) else none

/-! ## Structural invariants of the AVL tree -/

/-- Every node's stored height field equals `1 + max` of the children's and its
balance factor lies in `{-1, 0, 1}` (the AVL shape invariant of the spec). -/
inductive Avl : AVL → Prop where
  | leaf : Avl .leaf
  | node : ∀ (v : ℚ) (hid : String) (l r : AVL) (h : ℕ), Avl l → Avl r →
      h = 1 + max (getHeight l) (getHeight r) →
      getHeight l ≤ getHeight r + 1 → getHeight r ≤ getHeight l + 1 →
      Avl (.node v hid l r h)

/-- Executable form of `Avl`: checks the height field and the balance factor
at every node. -/
def avlCheck : AVL → Bool
  | .leaf => true
  | .node _ _ l r h =>
    avlCheck l && avlCheck r &&
    decide (h = 1 + max (getHeight l) (getHeight r)) &&
    decide (getHeight l ≤ getHeight r + 1) && decide (getHeight r ≤ getHeight l + 1)

/-- `v` is above the (optional) strict lower bound. -/
def aboveLo : Option ℚ → ℚ → Prop
  | none, _ => True
  | some a, v => a < v

/-- `v` is below the (optional) strict upper bound. -/
def belowHi : ℚ → Option ℚ → Prop
  | _, none => True
  | v, some b => v < b

/-- Strict binary-search-tree invariant with optional bounds. -/
inductive BST : Option ℚ → Option ℚ → AVL → Prop where
  | leaf : ∀ lo hi, BST lo hi .leaf
  | node : ∀ (lo hi : Option ℚ) (v : ℚ) (hid : String) (l r : AVL) (h : ℕ),
      aboveLo lo v → belowHi v hi →
      BST lo (some v) l → BST (some v) hi r → BST lo hi (.node v hid l r h)

theorem getHeight_node (v : ℚ) (hid : String) (l r : AVL) (h : ℕ) :
    getHeight (.node v hid l r h) = h := rfl

theorem getValue_node (v : ℚ) (hid : String) (l r : AVL) (h : ℕ) :
    getValue (.node v hid l r h) = v := rfl

theorem insertFix_node (v nv : ℚ) (nid : String) (l r : AVL) (h : ℕ) :
    insertFix v (.node nv nid l r h) =
      (if 1 < (getHeight l : ℤ) - getHeight r ∧ v < getValue l then
        rightRotate (.node nv nid l r (1 + max (getHeight l) (getHeight r)))
      else if (getHeight l : ℤ) - getHeight r < -1 ∧ getValue r < v then
        leftRotate (.node nv nid l r (1 + max (getHeight l) (getHeight r)))
      else if 1 < (getHeight l : ℤ) - getHeight r ∧ getValue l < v then
        rightRotate (.node nv nid (leftRotate l) r (1 + max (getHeight l) (getHeight r)))
      else if (getHeight l : ℤ) - getHeight r < -1 ∧ v < getValue r then
        leftRotate (.node nv nid l (rightRotate r) (1 + max (getHeight l) (getHeight r)))
      else .node nv nid l r (1 + max (getHeight l) (getHeight r))) := rfl

theorem aboveLo_trans {lo : Option ℚ} {a b : ℚ} (h1 : aboveLo lo a) (h2 : a < b) :
    aboveLo lo b := by
  cases lo with
  | none => trivial
  | some c => exact lt_trans h1 h2

theorem belowHi_trans {hi : Option ℚ} {a b : ℚ} (h1 : a < b) (h2 : belowHi b hi) :
    belowHi a hi := by
  cases hi with
  | none => trivial
  | some c => exact lt_trans h1 h2

/-- After an insert that increased the subtree height, the inserted value is
not at the new root, and the subtree leans toward the side containing it. -/
def InsGrowth (v : ℚ) : AVL → Prop
  | .leaf => True
  | .node nv _ l r _ =>
      v ≠ nv ∧ (v < nv → getHeight l = getHeight r + 1) ∧
        (nv < v → getHeight r = getHeight l + 1)

theorem avlCheck_iff (t : AVL) : avlCheck t = true ↔ Avl t := by
  induction t with
  | leaf => simp [avlCheck]; exact Avl.leaf
  | node v hid l r h ihl ihr =>
    simp only [avlCheck, Bool.and_eq_true, decide_eq_true_eq]
    constructor
    · rintro ⟨⟨⟨⟨cl, cr⟩, hh⟩, b1⟩, b2⟩
      exact Avl.node v hid l r h (ihl.1 cl) (ihr.1 cr) hh b1 b2
    · rintro (_ | ⟨_, _, _, _, _, al, ar, hh, b1, b2⟩)
      exact ⟨⟨⟨⟨ihl.2 al, ihr.2 ar⟩, hh⟩, b1⟩, b2⟩

theorem avl_inv {v : ℚ} {hid : String} {l r : AVL} {h : ℕ} (ha : Avl (.node v hid l r h)) :
    Avl l ∧ Avl r ∧ h = 1 + max (getHeight l) (getHeight r) ∧
      getHeight l ≤ getHeight r + 1 ∧ getHeight r ≤ getHeight l + 1 := by
  rcases ha with _ | ⟨_, _, _, _, _, al, ar, hh, b1, b2⟩
  exact ⟨al, ar, hh, b1, b2⟩

theorem bst_inv {lo hi : Option ℚ} {v : ℚ} {hid : String} {l r : AVL} {h : ℕ}
    (hb : BST lo hi (.node v hid l r h)) :
    aboveLo lo v ∧ belowHi v hi ∧ BST lo (some v) l ∧ BST (some v) hi r := by
  rcases hb with _ | ⟨_, _, _, _, _, _, _, hlo, hhi, bl, br⟩
  exact ⟨hlo, hhi, bl, br⟩

/-- Central specification of `_insert_node`: it preserves the AVL shape
invariant and the strict BST invariant, changes the height by at most one,
and when the height grows the new root leans toward the inserted value. -/
theorem insertNode_spec (t : AVL) : ∀ (lo hi : Option ℚ) (v : ℚ) (hid : String),
    Avl t → BST lo hi t → aboveLo lo v → belowHi v hi →
    Avl (insertNode t v hid) ∧ BST lo hi (insertNode t v hid) ∧
    getHeight t ≤ getHeight (insertNode t v hid) ∧
    getHeight (insertNode t v hid) ≤ getHeight t + 1 ∧
    (getHeight (insertNode t v hid) = getHeight t + 1 → 1 ≤ getHeight t →
      InsGrowth v (insertNode t v hid)) := by
  induction t with
  | leaf =>
    intro lo hi v hid _ _ hva hvb
    refine ⟨?_, ?_, ?_, ?_, ?_⟩
    · exact Avl.node v hid .leaf .leaf 1 Avl.leaf Avl.leaf rfl
        (by simp [getHeight]) (by simp [getHeight])
    · exact BST.node lo hi v hid .leaf .leaf 1 hva hvb (BST.leaf _ _) (BST.leaf _ _)
    · simp [insertNode, getHeight]
    · simp [insertNode, getHeight]
    · intro _ h0
      simp [insertNode, getHeight] at h0
  | node nv nid l r h ihl ihr =>
    intro lo hi v hid ha hb hva hvb
    obtain ⟨al, ar, hh, hbal1, hbal2⟩ := avl_inv ha
    obtain ⟨hlo, hhi, bstl, bstr⟩ := bst_inv hb
    rcases lt_trichotomy v nv with hvn | hvn | hvn
    · -- v < nv : insert into the left subtree
      obtain ⟨al', bl', hm1, hm2, hgrow⟩ := ihl lo (some nv) v hid al bstl hva hvn
      have heq : insertNode (.node nv nid l r h) v hid
          = insertFix v (.node nv nid (insertNode l v hid) r h) := by
        simp only [insertNode]
        rw [if_pos hvn]
      rw [heq, insertFix_node]
      by_cases hbig : getHeight r + 1 < getHeight (insertNode l v hid)
      · -- left-heavy: a rotation is required
        have hl'h : getHeight (insertNode l v hid) = getHeight r + 2 := by omega
        have hgrow' : InsGrowth v (insertNode l v hid) := hgrow (by omega) (by omega)
        rcases hl's : insertNode l v hid with _ | ⟨lv, lid, ll, lr, lh⟩
        · exfalso
          rw [hl's] at hl'h
          simp only [getHeight] at hl'h
          omega
        · rw [hl's] at al' bl' hgrow' hl'h
          simp only [getHeight_node] at hl'h
          obtain ⟨all, alr, hlheq, lb1, lb2⟩ := avl_inv al'
          obtain ⟨hlolv, hlvnv, bstll, bstlr⟩ := bst_inv bl'
          have hlvnv' : lv < nv := hlvnv
          simp only [InsGrowth] at hgrow'
          obtain ⟨hvlv, hllt, hlgt⟩ := hgrow'
          simp only [getHeight_node, getValue_node]
          rcases lt_trichotomy v lv with hvl | hvl | hvl
          · -- inserted into ll: single right rotation
            have hll2 : getHeight ll = getHeight r + 1 := by
              have := hllt hvl
              omega
            have hlr2 : getHeight lr = getHeight r := by
              have := hllt hvl
              omega
            rw [if_pos ⟨by omega, hvl⟩]
            simp only [rightRotate, getHeight_node]
            refine ⟨?_, ?_, ?_, ?_, ?_⟩
            · refine Avl.node _ _ _ _ _ all
                (Avl.node _ _ _ _ _ alr ar rfl (by omega) (by omega)) ?_ ?_ ?_
              · simp only [getHeight_node]
              · simp only [getHeight_node]
                omega
              · simp only [getHeight_node]
                omega
            · exact BST.node lo hi lv lid ll (AVL.node nv nid lr r _) _
                hlolv (belowHi_trans hlvnv' hhi) bstll
                (BST.node (some lv) hi nv nid lr r _ hlvnv' hhi bstlr bstr)
            · omega
            · omega
            · intro hgr _
              exfalso
              omega
          · exact absurd hvl hvlv
          · -- inserted into lr: left rotation of the child, then right rotation
            have hlr2 : getHeight lr = getHeight r + 1 := by
              have := hlgt hvl
              omega
            have hll2 : getHeight ll = getHeight r := by
              have := hlgt hvl
              omega
            rw [if_neg (fun hc => absurd hc.2 (lt_asymm hvl)),
                if_neg (fun hc => absurd hc.1 (by omega)),
                if_pos ⟨by omega, hvl⟩]
            rcases hlr's : lr with _ | ⟨cv, cid, cl, cr, ch⟩
            · exfalso
              rw [hlr's] at hlr2
              simp only [getHeight] at hlr2
              omega
            · rw [hlr's] at alr bstlr hlr2
              simp only [getHeight_node] at hlr2
              obtain ⟨acl, acr, hcheq, cb1, cb2⟩ := avl_inv alr
              obtain ⟨hlvcv, hcvnv, bstcl, bstcr⟩ := bst_inv bstlr
              have hlvcv' : lv < cv := hlvcv
              have hcvnv' : cv < nv := hcvnv
              simp only [leftRotate, rightRotate, getHeight_node]
              refine ⟨?_, ?_, ?_, ?_, ?_⟩
              · refine Avl.node _ _ _ _ _
                  (Avl.node _ _ _ _ _ all acl rfl (by omega) (by omega))
                  (Avl.node _ _ _ _ _ acr ar rfl (by omega) (by omega)) ?_ ?_ ?_
                · simp only [getHeight_node]
                · simp only [getHeight_node]
                  omega
                · simp only [getHeight_node]
                  omega
              · exact BST.node lo hi cv cid (AVL.node lv lid ll cl _)
                  (AVL.node nv nid cr r _) _
                  (aboveLo_trans hlolv hlvcv') (belowHi_trans hcvnv' hhi)
                  (BST.node lo (some cv) lv lid ll cl _ hlolv hlvcv' bstll bstcl)
                  (BST.node (some cv) hi nv nid cr r _ hcvnv' hhi bstcr bstr)
              · omega
              · omega
              · intro hgr _
                exfalso
                omega
      · -- |balance| <= 1 : no rotation
        rw [if_neg (fun hc => absurd hc.1 (by omega)),
            if_neg (fun hc => absurd hc.1 (by omega)),
            if_neg (fun hc => absurd hc.1 (by omega)),
            if_neg (fun hc => absurd hc.1 (by omega))]
        refine ⟨Avl.node _ _ _ _ _ al' ar rfl (by omega) (by omega),
          BST.node lo hi nv nid _ r _ hlo hhi bl' bstr, ?_, ?_, ?_⟩
        · simp only [getHeight_node]
          omega
        · simp only [getHeight_node]
          omega
        · intro hgr hpos
          simp only [getHeight_node] at hgr hpos
          simp only [InsGrowth, getHeight_node]
          exact ⟨ne_of_lt hvn, fun _ => by omega, fun hc => absurd hvn (lt_asymm hc)⟩
    · -- v = nv : in-place id update, no shape change
      subst hvn
      have heq : insertNode (.node v nid l r h) v hid = .node v hid l r h := by
        simp only [insertNode]
        rw [if_neg (lt_irrefl v), if_neg (lt_irrefl v)]
      rw [heq]
      refine ⟨Avl.node _ _ _ _ _ al ar hh hbal1 hbal2,
        BST.node lo hi v hid l r h hlo hhi bstl bstr, le_refl _,
        by simp only [getHeight_node]; omega, ?_⟩
      intro hgr _
      exfalso
      simp only [getHeight_node] at hgr
      omega
    · -- nv < v : insert into the right subtree
      obtain ⟨ar', br', hm1, hm2, hgrow⟩ := ihr (some nv) hi v hid ar bstr hvn hvb
      have heq : insertNode (.node nv nid l r h) v hid
          = insertFix v (.node nv nid l (insertNode r v hid) h) := by
        simp only [insertNode]
        rw [if_neg (lt_asymm hvn), if_pos hvn]
      rw [heq, insertFix_node]
      by_cases hbig : getHeight l + 1 < getHeight (insertNode r v hid)
      · -- right-heavy: a rotation is required
        have hr'h : getHeight (insertNode r v hid) = getHeight l + 2 := by omega
        have hgrow' : InsGrowth v (insertNode r v hid) := hgrow (by omega) (by omega)
        rcases hr's : insertNode r v hid with _ | ⟨rv, rid, rl, rr, rh⟩
        · exfalso
          rw [hr's] at hr'h
          simp only [getHeight] at hr'h
          omega
        · rw [hr's] at ar' br' hgrow' hr'h
          simp only [getHeight_node] at hr'h
          obtain ⟨arl, arr, hrheq, rb1, rb2⟩ := avl_inv ar'
          obtain ⟨hnvrv, hrvhi, bstrl, bstrr⟩ := bst_inv br'
          have hnvrv' : nv < rv := hnvrv
          simp only [InsGrowth] at hgrow'
          obtain ⟨hvrv, hrlt, hrgt⟩ := hgrow'
          simp only [getHeight_node, getValue_node]
          rcases lt_trichotomy v rv with hvr | hvr | hvr
          · -- inserted into rl: right rotation of the child, then left rotation
            have hrl2 : getHeight rl = getHeight l + 1 := by
              have := hrlt hvr
              omega
            have hrr2 : getHeight rr = getHeight l := by
              have := hrlt hvr
              omega
            rw [if_neg (fun hc => absurd hc.1 (by omega)),
                if_neg (fun hc => absurd hc.2 (lt_asymm hvr)),
                if_neg (fun hc => absurd hc.1 (by omega)),
                if_pos ⟨by omega, hvr⟩]
            rcases hrl's : rl with _ | ⟨cv, cid, cl, cr, ch⟩
            · exfalso
              rw [hrl's] at hrl2
              simp only [getHeight] at hrl2
              omega
            · rw [hrl's] at arl bstrl hrl2
              simp only [getHeight_node] at hrl2
              obtain ⟨acl, acr, hcheq, cb1, cb2⟩ := avl_inv arl
              obtain ⟨hrvcv, hcvrv, bstcl, bstcr⟩ := bst_inv bstrl
              have hnvcv' : nv < cv := hrvcv
              have hcvrv' : cv < rv := hcvrv
              simp only [rightRotate, leftRotate, getHeight_node]
              refine ⟨?_, ?_, ?_, ?_, ?_⟩
              · refine Avl.node _ _ _ _ _
                  (Avl.node _ _ _ _ _ al acl rfl (by omega) (by omega))
                  (Avl.node _ _ _ _ _ acr arr rfl (by omega) (by omega)) ?_ ?_ ?_
                · simp only [getHeight_node]
                · simp only [getHeight_node]
                  omega
                · simp only [getHeight_node]
                  omega
              · exact BST.node lo hi cv cid (AVL.node nv nid l cl _)
                  (AVL.node rv rid cr rr _) _
                  (aboveLo_trans hlo hnvcv') (belowHi_trans hcvrv' hrvhi)
                  (BST.node lo (some cv) nv nid l cl _ hlo hnvcv' bstl bstcl)
                  (BST.node (some cv) hi rv rid cr rr _ hcvrv' hrvhi bstcr bstrr)
              · omega
              · omega
              · intro hgr _
                exfalso
                omega
          · exact absurd hvr hvrv
          · -- inserted into rr: single left rotation
            have hrr2 : getHeight rr = getHeight l + 1 := by
              have := hrgt hvr
              omega
            have hrl2 : getHeight rl = getHeight l := by
              have := hrgt hvr
              omega
            rw [if_neg (fun hc => absurd hc.1 (by omega)),
                if_pos ⟨by omega, hvr⟩]
            simp only [leftRotate, getHeight_node]
            refine ⟨?_, ?_, ?_, ?_, ?_⟩
            · refine Avl.node _ _ _ _ _
                (Avl.node _ _ _ _ _ al arl rfl (by omega) (by omega)) arr ?_ ?_ ?_
              · simp only [getHeight_node]
              · simp only [getHeight_node]
                omega
              · simp only [getHeight_node]
                omega
            · exact BST.node lo hi rv rid (AVL.node nv nid l rl _) rr _
                (aboveLo_trans hlo hnvrv') hrvhi
                (BST.node lo (some rv) nv nid l rl _ hlo hnvrv' bstl bstrl) bstrr
            · omega
            · omega
            · intro hgr _
              exfalso
              omega
      · -- |balance| <= 1 : no rotation
        rw [if_neg (fun hc => absurd hc.1 (by omega)),
            if_neg (fun hc => absurd hc.1 (by omega)),
            if_neg (fun hc => absurd hc.1 (by omega)),
            if_neg (fun hc => absurd hc.1 (by omega))]
        refine ⟨Avl.node _ _ _ _ _ al ar' rfl (by omega) (by omega),
          BST.node lo hi nv nid l _ _ hlo hhi bstl br', ?_, ?_, ?_⟩
        · simp only [getHeight_node]
          omega
        · simp only [getHeight_node]
          omega
        · intro hgr hpos
          simp only [getHeight_node] at hgr hpos
          simp only [InsGrowth, getHeight_node]
          exact ⟨(ne_of_lt hvn).symm, fun hc => absurd hvn (lt_asymm hc), fun _ => by omega⟩

/-- Every tree built by a sequence of inserts satisfies the AVL and BST
invariants. -/
theorem build_inv (ops : List (String × ℚ)) :
    Avl (buildTree ops) ∧ BST none none (buildTree ops) := by
  suffices h : ∀ t, Avl t → BST none none t →
      Avl (ops.foldl (fun t p => insertNode t p.2 p.1) t) ∧
      BST none none (ops.foldl (fun t p => insertNode t p.2 p.1) t) from
    h .leaf Avl.leaf (BST.leaf _ _)
  induction ops with
  | nil =>
    intro t ha hb
    exact ⟨ha, hb⟩
  | cons p ps ih =>
    intro t ha hb
    obtain ⟨ha', hb', _, _, _⟩ := insertNode_spec t none none p.2 p.1 ha hb trivial trivial
    exact ih _ ha' hb'

/-- The classical AVL size bound: a balanced tree of height `h` stores at least
`fib (h+2) - 1` entries.  This is the exact form of the `height ≲ 1.44 log2 n`
bound (`fib k ~ φ^k / √5` with `1 / log2 φ ≈ 1.44`). -/
theorem avl_fib (t : AVL) (ha : Avl t) : Nat.fib (getHeight t + 2) ≤ treeSize t + 1 := by
  induction t with
  | leaf => simp [getHeight, treeSize]
  | node v hid l r h ihl ihr =>
    obtain ⟨al, ar, hh, b1, b2⟩ := avl_inv ha
    have hfl := ihl al
    have hfr := ihr ar
    simp only [getHeight_node, treeSize]
    subst hh
    rcases Nat.le_total (getHeight r) (getHeight l) with hc | hc
    · rw [Nat.max_eq_left hc]
      have e1 : 1 + getHeight l + 2 = getHeight l + 1 + 2 := by omega
      rw [e1, Nat.fib_add_two]
      have e2 : getHeight l + 1 + 1 = getHeight l + 2 := by omega
      rw [e2]
      have h3 : Nat.fib (getHeight l + 1) ≤ Nat.fib (getHeight r + 2) :=
        Nat.fib_mono (by omega)
      omega
    · rw [Nat.max_eq_right hc]
      have e1 : 1 + getHeight r + 2 = getHeight r + 1 + 2 := by omega
      rw [e1, Nat.fib_add_two]
      have e2 : getHeight r + 1 + 1 = getHeight r + 2 := by omega
      rw [e2]
      have h3 : Nat.fib (getHeight r + 1) ≤ Nat.fib (getHeight l + 2) :=
        Nat.fib_mono (by omega)
      omega

theorem two_pow_half_le_fib (n : ℕ) : 2 ^ (n / 2) ≤ Nat.fib (n + 2) := by
  induction n using Nat.strong_induction_on with
  | _ n ih =>
    match n with
    | 0 => simp
    | 1 => simp [Nat.fib]
    | (m + 2) =>
      have h1 := ih m (by omega)
      have e : (m + 2) / 2 = m / 2 + 1 := by omega
      rw [e, pow_succ]
      have h2 : Nat.fib (m + 2) ≤ Nat.fib (m + 3) := Nat.fib_mono (by omega)
      have h3 : Nat.fib (m + 2 + 2) = Nat.fib (m + 2) + Nat.fib (m + 2 + 1) :=
        Nat.fib_add_two
      have e2 : m + 2 + 1 = m + 3 := by omega
      rw [e2] at h3
      omega

/-- Logarithmic height bound for balanced trees, derived from `avl_fib`. -/
theorem avl_height_le_log (t : AVL) (ha : Avl t) :
    getHeight t ≤ 2 * Nat.log 2 (treeSize t + 1) + 1 := by
  have h1 := avl_fib t ha
  have h2 := two_pow_half_le_fib (getHeight t)
  have h3 : 2 ^ (getHeight t / 2) ≤ treeSize t + 1 := le_trans h2 h1
  have h4 : getHeight t / 2 ≤ Nat.log 2 (treeSize t + 1) :=
    (Nat.pow_le_iff_le_log (by omega) (by omega)).mp h3
  omega

/-- All entries listed by the inorder traversal lie inside the BST bounds. -/
theorem bst_inorder_bounds {lo hi : Option ℚ} {t : AVL} (hb : BST lo hi t) :
    ∀ p ∈ inorder t, aboveLo lo p.2 ∧ belowHi p.2 hi := by
  induction t generalizing lo hi with
  | leaf => simp [inorder]
  | node v hid l r h ihl ihr =>
    obtain ⟨hlo, hhi, bl, br⟩ := bst_inv hb
    intro p hp
    simp only [inorder, List.mem_append, List.mem_singleton] at hp
    rcases hp with (hp | hp) | hp
    · obtain ⟨h1, h2⟩ := ihl bl p hp
      have h2' : p.2 < v := h2
      exact ⟨h1, belowHi_trans h2' hhi⟩
    · subst hp
      exact ⟨hlo, hhi⟩
    · obtain ⟨h1, h2⟩ := ihr br p hp
      have h1' : v < p.2 := h1
      exact ⟨aboveLo_trans hlo h1', h2⟩

/-- In a BST the inorder metrics are strictly increasing; in particular each
distinct metric value occurs at most once. -/
theorem bst_inorder_sorted {lo hi : Option ℚ} {t : AVL} (hb : BST lo hi t) :
    ((inorder t).map Prod.snd).Sorted (· < ·) := by
  induction t generalizing lo hi with
  | leaf => simp [inorder]
  | node v hid l r h ihl ihr =>
    obtain ⟨hlo, hhi, bl, br⟩ := bst_inv hb
    have hsl := ihl bl
    have hsr := ihr br
    have hbl := bst_inorder_bounds bl
    have hbr := bst_inorder_bounds br
    simp only [inorder, List.map_append, List.map_cons, List.map_nil]
    rw [List.append_assoc, List.singleton_append]
    show List.Pairwise (· < ·) _
    rw [List.pairwise_append]
    refine ⟨hsl, ?_, ?_⟩
    · rw [List.pairwise_cons]
      refine ⟨?_, hsr⟩
      intro b hbmem
      obtain ⟨p, hp, hpe⟩ := List.mem_map.mp hbmem
      have h1 : v < p.2 := (hbr p hp).1
      exact hpe ▸ h1
    · intro a hamem b hbmem
      obtain ⟨p, hp, hpe⟩ := List.mem_map.mp hamem
      have hav : a < v := by
        have h2 : p.2 < v := (hbl p hp).2
        exact hpe ▸ h2
      rcases List.mem_cons.mp hbmem with hbv | hbmem2
      · subst hbv
        exact hav
      · obtain ⟨q, hq, hqe⟩ := List.mem_map.mp hbmem2
        have hvb : v < b := by
          have h2 : v < q.2 := (hbr q hq).1
          exact hqe ▸ h2
        exact lt_trans hav hvb

/-- `_range_query` returns a permutation of the in-range entries of the
inorder listing. -/
theorem rangeQuery_perm {lo hi : Option ℚ} {t : AVL} (hb : BST lo hi t) (qlo qhi : ℚ) :
    (rangeQuery t qlo qhi).Perm
      ((inorder t).filter (fun p => decide (qlo ≤ p.2 ∧ p.2 ≤ qhi))) := by
  induction t generalizing lo hi with
  | leaf => simp [rangeQuery, inorder]
  | node v hid l r h ihl ihr =>
    obtain ⟨hlo, hhi, bl, br⟩ := bst_inv hb
    have hL : (if qlo < v then rangeQuery l qlo qhi else []).Perm
        ((inorder l).filter (fun p => decide (qlo ≤ p.2 ∧ p.2 ≤ qhi))) := by
      by_cases hc : qlo < v
      · rw [if_pos hc]
        exact ihl bl
      · rw [if_neg hc]
        have hnil : (inorder l).filter (fun p => decide (qlo ≤ p.2 ∧ p.2 ≤ qhi)) = [] := by
          rw [List.filter_eq_nil_iff]
          intro p hp
          have h2 : p.2 < v := (bst_inorder_bounds bl p hp).2
          simp only [decide_eq_true_eq, not_and]
          intro hq1 _
          exact absurd (lt_of_lt_of_le h2 (le_of_not_lt hc)) (not_lt_of_le hq1)
        rw [hnil]
    have hR : (if v < qhi then rangeQuery r qlo qhi else []).Perm
        ((inorder r).filter (fun p => decide (qlo ≤ p.2 ∧ p.2 ≤ qhi))) := by
      by_cases hc : v < qhi
      · rw [if_pos hc]
        exact ihr br
      · rw [if_neg hc]
        have hnil : (inorder r).filter (fun p => decide (qlo ≤ p.2 ∧ p.2 ≤ qhi)) = [] := by
          rw [List.filter_eq_nil_iff]
          intro p hp
          have h2 : v < p.2 := (bst_inorder_bounds br p hp).1
          simp only [decide_eq_true_eq, not_and]
          intro _ hq2
          exact absurd h2 (not_lt_of_le (le_trans hq2 (le_of_not_lt hc)))
        rw [hnil]
    have hS : (if qlo ≤ v ∧ v ≤ qhi then [(hid, v)] else [])
        = ([(hid, v)].filter (fun p => decide (qlo ≤ p.2 ∧ p.2 ≤ qhi))) := by
      by_cases hc : qlo ≤ v ∧ v ≤ qhi
      · rw [if_pos hc]
        simp [hc.1, hc.2]
      · rw [if_neg hc]
        simp only [List.filter_singleton, decide_eq_true_eq]
        rw [cond_eq_if, if_neg (by simpa using hc)]
    simp only [rangeQuery, inorder, List.filter_append]
    rw [hS]
    refine List.Perm.append ?_ hR
    exact (List.perm_append_comm).trans (List.Perm.append hL (List.Perm.refl _))

/-- Specification-side description of what `_insert_node` does when the metric
already occurs: walk the search path and overwrite the `horse_id` at the
matching node, leaving shape, metrics and heights untouched. -/
def updId : AVL → ℚ → String → AVL
  | .leaf, _, _ => .leaf
  | .node nv nid l r h, v, hid =>
    if v < nv then .node nv nid (updId l v hid) r h
    else if nv < v then .node nv nid l (updId r v hid) h
    else .node nv hid l r h

theorem updId_height (t : AVL) (v : ℚ) (hid : String) :
    getHeight (updId t v hid) = getHeight t := by
  cases t with
  | leaf => rfl
  | node nv nid l r h =>
    simp only [updId]
    split
    · rfl
    · split
      · rfl
      · rfl

theorem updId_size (t : AVL) (v : ℚ) (hid : String) :
    treeSize (updId t v hid) = treeSize t := by
  induction t with
  | leaf => rfl
  | node nv nid l r h ihl ihr =>
    simp only [updId]
    split
    · simp only [treeSize, ihl]
    · split
      · simp only [treeSize, ihr]
      · rfl

theorem inorder_length (t : AVL) : (inorder t).length = treeSize t := by
  induction t with
  | leaf => rfl
  | node v hid l r h ihl ihr =>
    simp only [inorder, treeSize, List.length_append, List.length_singleton, ihl, ihr]
    omega

theorem map_id_of_ne {v : ℚ} {hid : String} (xs : List (String × ℚ))
    (hx : ∀ p ∈ xs, p.2 ≠ v) :
    xs.map (fun p => if p.2 = v then (hid, p.2) else p) = xs := by
  induction xs with
  | nil => rfl
  | cons p ps ih =>
    simp only [List.map_cons]
    rw [if_neg (hx p (List.mem_cons_self p ps)), ih (fun q hq => hx q (List.mem_cons_of_mem p hq))]

/-- On a BST, `updId` rewrites exactly the id stored at metric `v` in the
inorder listing. -/
theorem updId_inorder {lo hi : Option ℚ} {t : AVL} (hb : BST lo hi t) (v : ℚ) (hid : String) :
    inorder (updId t v hid) = (inorder t).map (fun p => if p.2 = v then (hid, p.2) else p) := by
  induction t generalizing lo hi with
  | leaf => rfl
  | node nv nid l r h ihl ihr =>
    obtain ⟨hlo, hhi, bl, br⟩ := bst_inv hb
    rcases lt_trichotomy v nv with hvn | hvn | hvn
    · simp only [updId]
      rw [if_pos hvn]
      simp only [inorder, List.map_append, List.map_cons, List.map_nil, ihl bl]
      rw [if_neg (by exact fun hc => absurd hc.symm (ne_of_lt hvn))]
      rw [map_id_of_ne (inorder r) (fun p hp => ?_)]
      have h1 : nv < p.2 := (bst_inorder_bounds br p hp).1
      exact fun hc => absurd (hc ▸ hvn) (lt_asymm (hc ▸ h1))
    · subst hvn
      simp only [updId]
      rw [if_neg (lt_irrefl v), if_neg (lt_irrefl v)]
      simp only [inorder, List.map_append, List.map_cons, List.map_nil]
      rw [map_id_of_ne (inorder l) (fun p hp => ne_of_lt (bst_inorder_bounds bl p hp).2),
        map_id_of_ne (inorder r) (fun p hp => ne_of_gt (bst_inorder_bounds br p hp).1)]
      simp
    · simp only [updId]
      rw [if_neg (lt_asymm hvn), if_pos hvn]
      simp only [inorder, List.map_append, List.map_cons, List.map_nil, ihr br]
      rw [if_neg (by exact fun hc => absurd hc.symm (ne_of_gt hvn))]
      rw [map_id_of_ne (inorder l) (fun p hp => ?_)]
      have h1 : p.2 < nv := (bst_inorder_bounds bl p hp).2
      exact fun hc => absurd (hc ▸ hvn) (lt_asymm (hc ▸ h1))

/-- When the inserted metric already occurs in the tree, `_insert_node`
reduces to the in-place id overwrite: no rotation fires and no node is
created. -/
theorem insert_existing {t : AVL} {lo hi : Option ℚ} (ha : Avl t) (hb : BST lo hi t)
    (v : ℚ) (hid : String) (hmem : v ∈ (inorder t).map Prod.snd) :
    insertNode t v hid = updId t v hid := by
  induction t generalizing lo hi with
  | leaf => simp [inorder] at hmem
  | node nv nid l r h ihl ihr =>
    obtain ⟨al, ar, hh, hb1, hb2⟩ := avl_inv ha
    obtain ⟨hlo, hhi, bl, br⟩ := bst_inv hb
    have hmem2 : v ∈ (inorder l).map Prod.snd ∨ v = nv ∨ v ∈ (inorder r).map Prod.snd := by
      simpa [inorder, List.mem_append, List.mem_cons, or_assoc] using hmem
    clear hmem
    rcases lt_trichotomy v nv with hvn | hvn | hvn
    · have hmeml : v ∈ (inorder l).map Prod.snd := by
        rcases hmem2 with hmem | hmem | hmem
        · exact hmem
        · exact absurd hmem (ne_of_lt hvn)
        · obtain ⟨p, hp, hpe⟩ := List.mem_map.mp hmem
          have h1 : nv < p.2 := (bst_inorder_bounds br p hp).1
          exact absurd (hpe ▸ h1) (lt_asymm hvn)
      have hrec := ihl al bl hmeml
      simp only [insertNode, updId]
      rw [if_pos hvn, if_pos hvn, hrec, insertFix_node]
      rw [if_neg (fun hc => absurd hc.1 (by rw [updId_height]; omega)),
        if_neg (fun hc => absurd hc.1 (by rw [updId_height]; omega)),
        if_neg (fun hc => absurd hc.1 (by rw [updId_height]; omega)),
        if_neg (fun hc => absurd hc.1 (by rw [updId_height]; omega))]
      rw [updId_height]
      rw [← hh]
    · subst hvn
      simp only [insertNode, updId]
      rw [if_neg (lt_irrefl v), if_neg (lt_irrefl v), if_neg (lt_irrefl v),
        if_neg (lt_irrefl v)]
    · have hmemr : v ∈ (inorder r).map Prod.snd := by
        rcases hmem2 with hmem | hmem | hmem
        · obtain ⟨p, hp, hpe⟩ := List.mem_map.mp hmem
          have h1 : p.2 < nv := (bst_inorder_bounds bl p hp).2
          exact absurd (hpe ▸ h1) (lt_asymm hvn)
        · exact absurd hmem (ne_of_gt hvn)
        · exact hmem
      have hrec := ihr ar br hmemr
      simp only [insertNode, updId]
      rw [if_neg (lt_asymm hvn), if_neg (lt_asymm hvn), if_pos hvn, if_pos hvn, hrec,
        insertFix_node]
      rw [if_neg (fun hc => absurd hc.1 (by rw [updId_height]; omega)),
        if_neg (fun hc => absurd hc.1 (by rw [updId_height]; omega)),
        if_neg (fun hc => absurd hc.1 (by rw [updId_height]; omega)),
        if_neg (fun hc => absurd hc.1 (by rw [updId_height]; omega))]
      rw [updId_height]
      rw [← hh]

/-! ## Association-list model of Python dicts (insertion-ordered) -/

/-- Python `k in d` / `d.get(k)` lookup. -/
def dictGet {α β : Type} [DecidableEq α] : List (α × β) → α → Option β
  | [], _ => none
  | (k, v) :: rest, key => if k = key then some v else dictGet rest key

/-- Python `d[k] = v`: update the existing binding in place, or append. -/
def dictSet {α β : Type} [DecidableEq α] : List (α × β) → α → β → List (α × β)
  | [], key, v => [(key, v)]
  | (k, w) :: rest, key, v =>
    if k = key then (k, v) :: rest else (k, w) :: dictSet rest key v

/-- Python `del d[k]` (with duplicate-free keys this removes the one binding). -/
def dictDel {α β : Type} [DecidableEq α] : List (α × β) → α → List (α × β)
  | [], _ => []
  | (k, w) :: rest, key =>
    if k = key then dictDel rest key else (k, w) :: dictDel rest key

theorem dictGet_set {α β : Type} [DecidableEq α] (l : List (α × β)) (k : α) (v : β)
    (k' : α) : dictGet (dictSet l k v) k' = if k = k' then some v else dictGet l k' := by
  induction l with
  | nil =>
    simp [dictSet, dictGet]
  | cons p rest ih =>
    obtain ⟨pk, pv⟩ := p
    by_cases h1 : pk = k
    · subst h1
      by_cases h2 : pk = k'
      · subst h2
        simp [dictSet, dictGet]
      · simp [dictSet, dictGet, h2]
    · have h1s : ¬k = pk := fun hc => h1 hc.symm
      by_cases h2 : pk = k'
      · subst h2
        simp [dictSet, dictGet, h1, h1s]
      · simp [dictSet, dictGet, h1, h2, ih]

/-! ## Project_1 AVL variant (`Project_1_src/.../avl_tree.py`)

Same node layout, but `insert` sends an equal metric to the *right* subtree
(`metric < root.metric` goes left, everything else goes right), so exact
duplicates become new nodes. -/

/-- The balance cases at the end of the Project_1 `AVLTree.insert`
(guards use `metric < ...` / `metric >= ...`). -/
def p1Fix (metric : ℚ) : AVL → AVL
  | .leaf => .leaf
  | .node rv rid l r _ =>
    let n := AVL.node rv rid l r (1 + max (getHeight l) (getHeight r))
    let b := getBalance n
    if 1 < b ∧ metric < getValue l then rightRotate n
    else if b < -1 ∧ getValue r ≤ metric then leftRotate n
    else if 1 < b ∧ getValue l ≤ metric then
      rightRotate (AVL.node rv rid (leftRotate l) r (1 + max (getHeight l) (getHeight r)))
    else if b < -1 ∧ metric < getValue r then
      leftRotate (AVL.node rv rid l (rightRotate r) (1 + max (getHeight l) (getHeight r)))
    else n

/-- Project_1 `AVLTree.insert` (the rotations are textually identical to the
optimized variant's, so `leftRotate`/`rightRotate` are shared). -/
def p1Insert (root : AVL) (hid : String) (metric : ℚ) : AVL :=
  match root with
  | .leaf => .node metric hid .leaf .leaf 1
  | .node rv rid l r h =>
    if metric < rv then p1Fix metric (.node rv rid (p1Insert l hid metric) r h)
    else p1Fix metric (.node rv rid l (p1Insert r hid metric) h)

/-! ## `OptimizedAVLTree` object state: range cache (`range_cache`,
`cache_valid`) around the tree, for the cache-invalidation claim. -/

structure OptTree where
  root : AVL
  rangeCache : List ((ℚ × ℚ) × List (String × ℚ))
  cacheValid : Bool

/-- `OptimizedAVLTree.__init__`. -/
def initTree : OptTree := ⟨.leaf, [], false⟩

/-- `_invalidate_cache`. -/
def invalidateCache (s : OptTree) : OptTree :=
  { s with rangeCache := [], cacheValid := false }

/-- `insert`: insert one node, then invalidate the range cache. -/
def treeInsert (s : OptTree) (hid : String) (v : ℚ) : OptTree :=
  invalidateCache { s with root := insertNode s.root v hid }

instance decSndLe : DecidableRel (fun a b : String × ℚ => a.2 ≤ b.2) :=
  fun a b => inferInstanceAs (Decidable (a.2 ≤ b.2))

/-- `insert_bulk`: stable-sort the items by value, insert all, then invalidate
the cache once. -/
def treeInsertBulk (s : OptTree) (items : List (String × ℚ)) : OptTree :=
  let sortedItems := items.insertionSort (fun a b => a.2 ≤ b.2)
  invalidateCache
    { s with root := sortedItems.foldl (fun t p => insertNode t p.2 p.1) s.root }

/-- The cache-miss path of `get_range`: compute, store, mark the cache valid. -/
def computeRange (s : OptTree) (lo hi : ℚ) : List (String × ℚ) × OptTree :=
  let res := rangeQuery s.root lo hi
  (res, { s with rangeCache := dictSet s.rangeCache (lo, hi) res, cacheValid := true })

/-- `get_range`: serve from `range_cache` when the key is present and the
cache is valid, else take the miss path. -/
def getRange (s : OptTree) (lo hi : ℚ) : List (String × ℚ) × OptTree :=
  match dictGet s.rangeCache (lo, hi) with
  | some res => if s.cacheValid then (res, s) else computeRange s lo hi
  | none => computeRange s lo hi

theorem getRange_miss (s : OptTree) (lo hi : ℚ)
    (h : dictGet s.rangeCache (lo, hi) = none) :
    getRange s lo hi = computeRange s lo hi := by
  simp only [getRange, h]

theorem getRange_hit (s : OptTree) (lo hi : ℚ) (cv : List (String × ℚ))
    (h : dictGet s.rangeCache (lo, hi) = some cv) (hv : s.cacheValid = true) :
    getRange s lo hi = (cv, s) := by
  simp only [getRange, h, hv, if_true]

theorem getRange_stale (s : OptTree) (lo hi : ℚ) (cv : List (String × ℚ))
    (h : dictGet s.rangeCache (lo, hi) = some cv) (hv : s.cacheValid = false) :
    getRange s lo hi = computeRange s lo hi := by
  simp only [getRange, h, hv]
  rw [if_neg (by simp)]

inductive TreeOp where
  | ins (hid : String) (v : ℚ)
  | insBulk (items : List (String × ℚ))
  | range (lo hi : ℚ)

def treeStep (s : OptTree) : TreeOp → OptTree
  | .ins hid v => treeInsert s hid v
  | .insBulk items => treeInsertBulk s items
  | .range lo hi => (getRange s lo hi).2

/-- An `OptimizedAVLTree` reached from a fresh object by any sequence of
`insert`, `insert_bulk` and `get_range` calls. -/
def runTree (ops : List TreeOp) : OptTree := ops.foldl treeStep initTree

/-- Every entry sitting in the range cache is the range query answer for the
*current* root. -/
def TreeCacheOk (s : OptTree) : Prop :=
  ∀ k res, dictGet s.rangeCache k = some res → res = rangeQuery s.root k.1 k.2

theorem treeCacheOk_step (s : OptTree) (op : TreeOp) (hs : TreeCacheOk s) :
    TreeCacheOk (treeStep s op) := by
  cases op with
  | ins hid v =>
    intro k res hk
    simp [treeStep, treeInsert, invalidateCache, dictGet] at hk
  | insBulk items =>
    intro k res hk
    simp [treeStep, treeInsertBulk, invalidateCache, dictGet] at hk
  | range lo hi =>
    have hmiss : TreeCacheOk (computeRange s lo hi).2 := by
      intro k res hk
      simp only [computeRange] at hk ⊢
      rw [dictGet_set] at hk
      by_cases hkk : (lo, hi) = k
      · rw [if_pos hkk] at hk
        cases hk
        rw [← hkk]
      · rw [if_neg hkk] at hk
        exact hs k res hk
    intro k res hk
    simp only [treeStep] at hk ⊢
    rcases hdg : dictGet s.rangeCache (lo, hi) with _ | cv
    · rw [getRange_miss s lo hi hdg] at hk ⊢
      exact hmiss k res hk
    · by_cases hcv : s.cacheValid = true
      · rw [getRange_hit s lo hi cv hdg hcv] at hk ⊢
        exact hs k res hk
      · rw [Bool.not_eq_true] at hcv
        rw [getRange_stale s lo hi cv hdg hcv] at hk ⊢
        exact hmiss k res hk

theorem runTree_cacheOk (ops : List TreeOp) : TreeCacheOk (runTree ops) := by
  suffices h : ∀ s, TreeCacheOk s → TreeCacheOk (ops.foldl treeStep s) from
    h initTree (by intro k res hk; simp [initTree, dictGet] at hk)
  induction ops with
  | nil => exact fun s hs => hs
  | cons op rest ih => exact fun s hs => ih _ (treeCacheOk_step s op hs)

/-! ## Claim theorems for the OrderedIndex -/

/-- C1: after any sequence of inserts on an initially empty tree, every node
has `|height(left) - height(right)| ≤ 1` and a stored height field equal to
`1 + max` of its children's (checked node-wise by `avlCheck`); consequently
`fib (height + 2) ≤ n + 1` — the exact form of the `height ≲ 1.44·log2 (n+1)`
bound — and `height ≤ 2·log2 (n+1) + 1`. -/
theorem c1_avl_balance_invariant (ops : List (String × ℚ)) :
    avlCheck (buildTree ops) = true ∧
    Nat.fib (getHeight (buildTree ops) + 2) ≤ treeSize (buildTree ops) + 1 ∧
    getHeight (buildTree ops) ≤ 2 * Nat.log 2 (treeSize (buildTree ops) + 1) + 1 := by
  obtain ⟨ha, _⟩ := build_inv ops
  exact ⟨(avlCheck_iff _).mpr ha, avl_fib _ ha, avl_height_le_log _ ha⟩

/-- C2: on any tree built by inserts, `_range_query` returns exactly the
stored entries with `min ≤ metric ≤ max` (a permutation of the filtered
inorder listing, whose metrics are strictly sorted, hence each entry appears
exactly once); an inverted range (`max < min`) yields `[]`, not an error. -/
theorem c2_range_correct (ops : List (String × ℚ)) (qlo qhi : ℚ) :
    (rangeQuery (buildTree ops) qlo qhi).Perm
      ((inorder (buildTree ops)).filter (fun p => decide (qlo ≤ p.2 ∧ p.2 ≤ qhi))) ∧
    ((inorder (buildTree ops)).map Prod.snd).Sorted (· < ·) ∧
    (qhi < qlo → rangeQuery (buildTree ops) qlo qhi = []) := by
  obtain ⟨_, hb⟩ := build_inv ops
  have hperm := rangeQuery_perm hb qlo qhi
  refine ⟨hperm, bst_inorder_sorted hb, fun hlt => ?_⟩
  have hnil : (inorder (buildTree ops)).filter
      (fun p => decide (qlo ≤ p.2 ∧ p.2 ≤ qhi)) = [] := by
    rw [List.filter_eq_nil_iff]
    intro p _
    simp only [decide_eq_true_eq, not_and]
    intro h1 h2
    exact absurd (le_trans h1 h2) (not_le_of_lt hlt)
  exact List.Perm.eq_nil (hnil ▸ hperm)

/-- C2 witness: an inverted range on a concrete two-entry tree is empty. -/
theorem c2_range_correct_witness :
    rangeQuery (buildTree [("A", 2), ("B", 1)]) 3 0 = [] :=
  (c2_range_correct [("A", 2), ("B", 1)] 3 0).2.2 (by norm_num)

/-- C3 counterexample: the Project_1 `AVLTree.insert` sends an equal metric to
the right subtree and creates a second node, so inserting metric `5` twice
leaves two stored entries — the claimed in-place overwrite does not happen on
that variant. -/
theorem c3_p1_duplicate_counterexample :
    treeSize (p1Insert (p1Insert .leaf "A" 5) "B" 5) = 2 ∧
    inorder (p1Insert (p1Insert .leaf "A" 5) "B" 5) = [("A", 5), ("B", 5)] ∧
    ¬ treeSize (p1Insert (p1Insert .leaf "A" 5) "B" 5) = treeSize (p1Insert .leaf "A" 5) := by
  refine ⟨?_, ?_, ?_⟩ <;> decide

/-- C3 (amended to the `Project_src` implementations): when the inserted
metric already occurs, `_insert_node` overwrites that node's id in place —
the inorder listing only changes that one id, the entry count is unchanged,
and distinct metrics occur at most once. -/
theorem c3_insert_overwrites_in_place (ops : List (String × ℚ)) (v : ℚ) (hid : String)
    (hmem : v ∈ (inorder (buildTree ops)).map Prod.snd) :
    inorder (insertNode (buildTree ops) v hid)
      = (inorder (buildTree ops)).map (fun p => if p.2 = v then (hid, p.2) else p) ∧
    treeSize (insertNode (buildTree ops) v hid) = treeSize (buildTree ops) ∧
    ((inorder (buildTree ops)).map Prod.snd).Nodup := by
  obtain ⟨ha, hb⟩ := build_inv ops
  have he := insert_existing ha hb v hid hmem
  rw [he]
  exact ⟨updId_inorder hb v hid, updId_size _ _ _, (bst_inorder_sorted hb).nodup⟩

/-- C3 witness: overwriting the id at an existing metric keeps the size. -/
theorem c3_insert_overwrites_in_place_witness :
    treeSize (insertNode (buildTree [("A", 5)]) 5 "B") = treeSize (buildTree [("A", 5)]) :=
  (c3_insert_overwrites_in_place [("A", 5)] 5 "B" (by decide)).2.1

/-- C9 counterexample: `get_kth_smallest` answers `None` for `k = 0` and
`k = -1` exactly as it does for the ordinary out-of-range `k = 2` on a
one-entry tree — there is no distinct contract-violation signal. -/
theorem c9_no_distinct_signal :
    getKthSmallest (buildTree [("A", 5)]) 0 = none ∧
    getKthSmallest (buildTree [("A", 5)]) (-1) = none ∧
    getKthSmallest (buildTree [("A", 5)]) 2 = none ∧
    getKthSmallest (buildTree [("A", 5)]) 0 = getKthSmallest (buildTree [("A", 5)]) 2 := by
  refine ⟨?_, ?_, ?_, ?_⟩ <;> decide

/-- C9 (amended): `get_kth_smallest(k)` returns an entry exactly when
`1 ≤ k ≤ n`, and returns the one ordinary not-found signal `None` for every
other `k`, including `k ≤ 0`. -/
theorem c9_kth_not_found (ops : List (String × ℚ)) (k : ℤ) :
    ((getKthSmallest (buildTree ops) k).isSome
      ↔ 1 ≤ k ∧ k ≤ (treeSize (buildTree ops) : ℤ)) ∧
    (k ≤ 0 → getKthSmallest (buildTree ops) k = none) := by
  constructor
  · unfold getKthSmallest
    by_cases h0 : k ≤ 0
    · rw [if_pos h0]
      simp only [Option.isSome_none, Bool.false_eq_true, false_iff, not_and, not_le]
      intro h1
      omega
    · rw [if_neg h0]
      simp only
      by_cases h1 : k ≤ ((inorder (buildTree ops)).length : ℤ)
      · rw [if_pos h1]
        rw [inorder_length] at h1
        have hlen : k.toNat - 1 < (inorder (buildTree ops)).length := by
          rw [inorder_length]
          omega
        rw [List.get?_eq_get hlen]
        simp only [Option.isSome_some, true_iff]
        omega
      · rw [if_neg h1]
        rw [inorder_length] at h1
        simp only [Option.isSome_none, Bool.false_eq_true, false_iff, not_and, not_le]
        intro _
        omega
  · intro h0
    unfold getKthSmallest
    rw [if_pos h0]

/-- C9 witness: `k = 0` on a concrete tree yields `None`. -/
theorem c9_kth_not_found_witness :
    getKthSmallest (buildTree [("A", 5)]) 0 = none :=
  (c9_kth_not_found [("A", 5)] 0).2 (by norm_num)

/-- C10: after any sequence of `insert`, `insert_bulk` and `get_range` calls,
`get_range` always returns the range query computed on the current root —
mutations clear `range_cache`, so a cached result is never served across an
intervening insert. -/
theorem c10_range_cache_fresh (ops : List TreeOp) (lo hi : ℚ) :
    (getRange (runTree ops) lo hi).1 = rangeQuery (runTree ops).root lo hi := by
  have hok := runTree_cacheOk ops
  rcases hdg : dictGet (runTree ops).rangeCache (lo, hi) with _ | cv
  · rw [getRange_miss _ _ _ hdg]
    rfl
  · by_cases hcv : (runTree ops).cacheValid = true
    · rw [getRange_hit _ _ _ cv hdg hcv]
      exact hok (lo, hi) cv hdg
    · rw [Bool.not_eq_true] at hcv
      rw [getRange_stale _ _ _ cv hdg hcv]
      rfl

/-! ## RankedLeaderboard (`optimized_leaderboard.py`, class `OptimizedLeaderboard`)

`heap` is modelled as the multiset of `(race_time, horse_id)` pairs (the
array layout maintained by `heapq` is irrelevant: every read either sorts it
via `nsmallest` or rebuilds it from `horse_times`); `entries` is the set of
ids in insertion order; `horse_times` is the id → best-time dict.  Range
queries are enabled (the default configuration), so `sorted_valid` exists. -/

structure LB where
  heap : List (ℚ × String)
  entries : List String
  horseTimes : List (String × ℚ)
  cachedTop : Option (List (String × ℚ))
  cacheValid : Bool
  sortedTimes : List (String × ℚ)
  sortedValid : Bool
  cacheTopK : ℕ
deriving DecidableEq, Repr

/-- `OptimizedLeaderboard.__init__(cache_top_k)`. -/
def initLB (k : ℕ) : LB := ⟨[], [], [], none, false, [], false, k⟩

/-- `_mark_heap_dirty`. -/
def markHeapDirty (s : LB) : LB := { s with cacheValid := false, sortedValid := false }

/-- `_invalidate_caches`. -/
def invalidateCaches (s : LB) : LB :=
  { s with cachedTop := none, cacheValid := false, sortedValid := false }

/-- `_add_result_internal`: push a new id, or keep the strictly better time.
The `none` inner branch is unreachable when `entries` mirrors the keys of
`horse_times` (Python would raise `KeyError` there). -/
def addResultInternal (s : LB) (hid : String) (t : ℚ) : LB :=
  if hid ∈ s.entries then
    match dictGet s.horseTimes hid with
    | some cur =>
      if t < cur then markHeapDirty { s with horseTimes := dictSet s.horseTimes hid t }
      else s
    | none => s
  else
    { s with heap := s.heap ++ [(t, hid)], entries := s.entries ++ [hid],
             horseTimes := dictSet s.horseTimes hid t }

/-- `add_result`. -/
def addResult (s : LB) (hid : String) (t : ℚ) : LB :=
  invalidateCaches (addResultInternal s hid t)

/-- `remove_horse` (its boolean return is not modelled; only the state). -/
def lbRemove (s : LB) (hid : String) : LB :=
  if hid ∈ s.entries then
    invalidateCaches
      { s with entries := s.entries.erase hid, horseTimes := dictDel s.horseTimes hid }
  else s

/-- `_rebuild_heap_if_needed` (the `cache_valid` flag doubles as the
heap-freshness flag in the source). -/
def rebuildHeapIfNeeded (s : LB) : LB :=
  if s.cacheValid then s
  else { s with heap := s.horseTimes.map (fun p => (p.2, p.1)), cacheValid := true }

/-- Lexicographic order on `(race_time, horse_id)` tuples, as Python compares
them inside `heapq.nsmallest`. -/
def tupleLe (a b : ℚ × String) : Prop := a.1 < b.1 ∨ (a.1 = b.1 ∧ a.2 ≤ b.2)

instance decTupleLe : DecidableRel tupleLe :=
  fun a b => inferInstanceAs (Decidable (a.1 < b.1 ∨ (a.1 = b.1 ∧ a.2 ≤ b.2)))

instance totalTupleLe : IsTotal (ℚ × String) tupleLe where
  total a b := by
    unfold tupleLe
    rcases lt_trichotomy a.1 b.1 with h | h | h
    · exact Or.inl (Or.inl h)
    · rcases le_total a.2 b.2 with h2 | h2
      · exact Or.inl (Or.inr ⟨h, h2⟩)
      · exact Or.inr (Or.inr ⟨h.symm, h2⟩)
    · exact Or.inr (Or.inl h)

instance transTupleLe : IsTrans (ℚ × String) tupleLe where
  trans a b c hab hbc := by
    unfold tupleLe at *
    rcases hab with h1 | ⟨h1, h1'⟩
    · rcases hbc with h2 | ⟨h2, _⟩
      · exact Or.inl (lt_trans h1 h2)
      · exact Or.inl (h2 ▸ h1)
    · rcases hbc with h2 | ⟨h2, h2'⟩
      · exact Or.inl (h1 ▸ h2)
      · exact Or.inr ⟨h1.trans h2, le_trans h1' h2'⟩

/-- `heapq.nsmallest(n, l)`: the first `n` elements in tuple order. -/
def nsmallest (n : ℕ) (l : List (ℚ × String)) : List (ℚ × String) :=
  (l.insertionSort tupleLe).take n

/-- The cache-miss path of `get_top_performers`: rebuild the heap if dirty,
take the `n` smallest, convert to `(horse_id, time)`, and refresh
`cached_top_results` when `n` fits the cache size. -/
def computeTop (s : LB) (n : ℕ) : List (String × ℚ) × LB :=
  let s1 := rebuildHeapIfNeeded s
  let result := (nsmallest n s1.heap).map (fun p => (p.2, p.1))
  let cachedList := (nsmallest s1.cacheTopK s1.heap).map (fun p => (p.2, p.1))
  let s2 := if n ≤ s1.cacheTopK then { s1 with cachedTop := some cachedList } else s1
  (result, s2)

/-- `get_top_performers(n)`: serve a prefix of `cached_top_results` when it is
present and long enough, else the miss path. -/
def getTopPerformers (s : LB) (n : ℕ) : List (String × ℚ) × LB :=
  match s.cachedTop with
  | some c => if n ≤ s.cacheTopK ∧ n ≤ c.length then (c.take n, s) else computeTop s n
  | none => computeTop s n

inductive LBOp where
  | add (hid : String) (t : ℚ)
  | remove (hid : String)

def lbStep (s : LB) : LBOp → LB
  | .add hid t => addResult s hid t
  | .remove hid => lbRemove s hid

/-- A leaderboard reached from a fresh object by `add_result` / `remove_horse`
calls. -/
def buildLB (k : ℕ) (ops : List LBOp) : LB := ops.foldl lbStep (initLB k)

/-- Representation invariant of reachable leaderboards: `entries` is exactly
the key list of `horse_times`, keys are unique, and all read caches are
invalid (every mutation ends in `_invalidate_caches`). -/
def LBInv (s : LB) : Prop :=
  s.entries = s.horseTimes.map Prod.fst ∧
  (s.horseTimes.map Prod.fst).Nodup ∧
  s.cachedTop = none ∧ s.cacheValid = false ∧ s.sortedValid = false

theorem dictGet_eq_none_iff {α β : Type} [DecidableEq α] (l : List (α × β)) (k : α) :
    dictGet l k = none ↔ k ∉ l.map Prod.fst := by
  induction l with
  | nil => simp [dictGet]
  | cons p rest ih =>
    obtain ⟨pk, pv⟩ := p
    by_cases h : pk = k
    · subst h
      simp [dictGet]
    · simp [dictGet, h, ih, (show ¬k = pk from fun hc => h hc.symm)]

theorem dictSet_keys_mem {α β : Type} [DecidableEq α] (l : List (α × β)) (k : α) (v : β)
    (h : k ∈ l.map Prod.fst) : (dictSet l k v).map Prod.fst = l.map Prod.fst := by
  induction l with
  | nil => simp at h
  | cons p rest ih =>
    obtain ⟨pk, pv⟩ := p
    by_cases hk : pk = k
    · subst hk
      simp [dictSet]
    · simp only [List.map_cons, List.mem_cons] at h
      rcases h with h | h
      · exact absurd h.symm hk
      · simp [dictSet, hk, ih h]

theorem dictSet_keys_new {α β : Type} [DecidableEq α] (l : List (α × β)) (k : α) (v : β)
    (h : k ∉ l.map Prod.fst) : (dictSet l k v).map Prod.fst = l.map Prod.fst ++ [k] := by
  induction l with
  | nil => simp [dictSet]
  | cons p rest ih =>
    obtain ⟨pk, pv⟩ := p
    simp only [List.map_cons, List.mem_cons, not_or] at h
    have hne : ¬pk = k := fun hc => h.1 hc.symm
    simp [dictSet, hne, ih h.2]

theorem dictDel_keys {α β : Type} [DecidableEq α] (l : List (α × β)) (k : α) :
    (dictDel l k).map Prod.fst = (l.map Prod.fst).filter (fun x => x != k) := by
  induction l with
  | nil => simp [dictDel]
  | cons p rest ih =>
    obtain ⟨pk, pv⟩ := p
    by_cases hk : pk = k
    · subst hk
      simp [dictDel, ih]
    · simp [dictDel, hk, ih]

theorem lbInv_initLB (k : ℕ) : LBInv (initLB k) := by
  refine ⟨rfl, List.nodup_nil, rfl, rfl, rfl⟩

theorem invalidateCaches_id (s : LB) (h : LBInv s) : invalidateCaches s = s := by
  obtain ⟨_, _, h3, h4, h5⟩ := h
  cases s
  simp_all [invalidateCaches]

theorem addResultInternal_new (s : LB) (hid : String) (t : ℚ) (hmem : hid ∉ s.entries) :
    addResultInternal s hid t =
      { s with heap := s.heap ++ [(t, hid)], entries := s.entries ++ [hid],
               horseTimes := dictSet s.horseTimes hid t } := by
  simp only [addResultInternal, hmem, if_false]

theorem addResultInternal_improve (s : LB) (hid : String) (t cur : ℚ)
    (hmem : hid ∈ s.entries) (hget : dictGet s.horseTimes hid = some cur) (hlt : t < cur) :
    addResultInternal s hid t =
      markHeapDirty { s with horseTimes := dictSet s.horseTimes hid t } := by
  simp only [addResultInternal, hmem, if_true, hget, hlt]

theorem addResultInternal_stay (s : LB) (hid : String) (t cur : ℚ)
    (hmem : hid ∈ s.entries) (hget : dictGet s.horseTimes hid = some cur)
    (hge : ¬t < cur) : addResultInternal s hid t = s := by
  simp only [addResultInternal, hmem, if_true, hget, hge, if_false]

theorem lbInv_step (s : LB) (op : LBOp) (h : LBInv s) : LBInv (lbStep s op) := by
  obtain ⟨h1, h2, h3, h4, h5⟩ := h
  cases op with
  | add hid t =>
    simp only [lbStep, addResult]
    by_cases hmem : hid ∈ s.entries
    · rcases hget : dictGet s.horseTimes hid with _ | cur
      · have hni : hid ∉ s.horseTimes.map Prod.fst := (dictGet_eq_none_iff _ _).mp hget
        rw [h1] at hmem
        exact absurd hmem hni
      · by_cases hlt : t < cur
        · rw [addResultInternal_improve s hid t cur hmem hget hlt]
          have hmk : hid ∈ s.horseTimes.map Prod.fst := by
            rw [← h1]
            exact hmem
          exact ⟨by simp only [invalidateCaches, markHeapDirty]; rw [h1, dictSet_keys_mem _ _ _ hmk],
            by simp only [invalidateCaches, markHeapDirty]; rw [dictSet_keys_mem _ _ _ hmk]; exact h2,
            rfl, rfl, rfl⟩
        · rw [addResultInternal_stay s hid t cur hmem hget hlt]
          exact ⟨h1, h2, rfl, rfl, rfl⟩
    · rw [addResultInternal_new s hid t hmem]
      have hnk : hid ∉ s.horseTimes.map Prod.fst := by
        rw [← h1]
        exact hmem
      refine ⟨?_, ?_, rfl, rfl, rfl⟩
      · simp only [invalidateCaches]
        rw [dictSet_keys_new _ _ _ hnk, h1]
      · simp only [invalidateCaches]
        rw [dictSet_keys_new _ _ _ hnk]
        simp only [List.nodup_append, List.nodup_cons, List.not_mem_nil, not_false_iff,
          List.nodup_nil, List.mem_singleton]
        exact ⟨h2, by simp, fun a ha hc => hnk ((List.mem_singleton.mp hc) ▸ ha)⟩
  | remove hid =>
    simp only [lbStep, lbRemove]
    by_cases hmem : hid ∈ s.entries
    · rw [if_pos hmem]
      refine ⟨?_, ?_, rfl, rfl, rfl⟩
      · simp only [invalidateCaches]
        rw [h1, (h2.erase_eq_filter hid), dictDel_keys]
      · simp only [invalidateCaches]
        rw [dictDel_keys]
        exact h2.filter _
    · rw [if_neg hmem]
      exact ⟨h1, h2, h3, h4, h5⟩

theorem lbInv_buildLB (k : ℕ) (ops : List LBOp) : LBInv (buildLB k ops) := by
  suffices h : ∀ s, LBInv s → LBInv (ops.foldl lbStep s) from h (initLB k) (lbInv_initLB k)
  induction ops with
  | nil => exact fun s hs => hs
  | cons op rest ih => exact fun s hs => ih _ (lbInv_step s op hs)

theorem addResult_lookup_new (s : LB) (hid : String) (t : ℚ) (hinv : LBInv s)
    (hnone : dictGet s.horseTimes hid = none) :
    dictGet (addResult s hid t).horseTimes hid = some t := by
  have hmem : hid ∉ s.entries := by
    rw [hinv.1]
    exact (dictGet_eq_none_iff _ _).mp hnone
  rw [addResult, addResultInternal_new s hid t hmem]
  simp only [invalidateCaches]
  rw [dictGet_set, if_pos rfl]

theorem addResult_lookup_min (s : LB) (hid : String) (t b : ℚ) (hinv : LBInv s)
    (hsome : dictGet s.horseTimes hid = some b) :
    dictGet (addResult s hid t).horseTimes hid = some (min b t) := by
  have hmem : hid ∈ s.entries := by
    rw [hinv.1]
    by_contra hc
    rw [← dictGet_eq_none_iff] at hc
    rw [hc] at hsome
    cases hsome
  by_cases hlt : t < b
  · rw [addResult, addResultInternal_improve s hid t b hmem hsome hlt]
    simp only [invalidateCaches, markHeapDirty]
    rw [dictGet_set, if_pos rfl, min_eq_right (le_of_lt hlt)]
  · rw [addResult, addResultInternal_stay s hid t b hmem hsome hlt]
    rw [invalidateCaches_id s hinv, hsome, min_eq_left (le_of_not_lt hlt)]

theorem addResult_noop (s : LB) (hid : String) (v b : ℚ) (hinv : LBInv s)
    (hsome : dictGet s.horseTimes hid = some b) (hle : b ≤ v) :
    addResult s hid v = s := by
  have hmem : hid ∈ s.entries := by
    rw [hinv.1]
    by_contra hc
    rw [← dictGet_eq_none_iff] at hc
    rw [hc] at hsome
    cases hsome
  rw [addResult, addResultInternal_stay s hid v b hmem hsome (not_lt_of_le hle)]
  exact invalidateCaches_id s hinv

/-- Folding a run of `add_result` calls for one id over a state. -/
def afterAdds (s : LB) (hid : String) (vs : List ℚ) : LB :=
  vs.foldl (fun s v => addResult s hid v) s

theorem lbInv_afterAdds (s : LB) (hid : String) (vs : List ℚ) (hinv : LBInv s) :
    LBInv (afterAdds s hid vs) := by
  induction vs generalizing s with
  | nil => exact hinv
  | cons v rest ih => exact ih _ (lbInv_step s (.add hid v) hinv)

theorem afterAdds_lookup (hid : String) (vs : List ℚ) :
    ∀ (s : LB) (b : ℚ), LBInv s → dictGet s.horseTimes hid = some b →
      dictGet (afterAdds s hid vs).horseTimes hid = some (vs.foldl min b) := by
  induction vs with
  | nil => exact fun s b _ hb => hb
  | cons v rest ih =>
    intro s b hinv hb
    exact ih (addResult s hid v) (min b v) (lbInv_step s (.add hid v) hinv)
      (addResult_lookup_min s hid v b hinv hb)

theorem foldl_min_le (vs : List ℚ) : ∀ b : ℚ, vs.foldl min b ≤ b := by
  induction vs with
  | nil => exact fun b => le_refl b
  | cons v rest ih =>
    intro b
    exact le_trans (ih (min b v)) (min_le_left b v)

/-- C6: over any run of `add_result(id, v)` calls on a reachable leaderboard,
(1) starting from an id not yet present, the stored best time equals the
minimum of the submitted values, (2) the stored best time is non-increasing
along the run, and (3) an `add_result` whose value is not a strict
improvement leaves the entire state unchanged. -/
theorem c6_monotone_best (k : ℕ) (ops : List LBOp) (hid : String) :
    (∀ (v : ℚ) (vs : List ℚ), hid ∉ (buildLB k ops).entries →
      dictGet (afterAdds (buildLB k ops) hid (v :: vs)).horseTimes hid
        = some (vs.foldl min v)) ∧
    (∀ (vs : List ℚ) (i j : ℕ), i ≤ j → ∀ bi bj,
      dictGet (afterAdds (buildLB k ops) hid (vs.take i)).horseTimes hid = some bi →
      dictGet (afterAdds (buildLB k ops) hid (vs.take j)).horseTimes hid = some bj →
      bj ≤ bi) ∧
    (∀ (b v : ℚ), dictGet (buildLB k ops).horseTimes hid = some b → b ≤ v →
      addResult (buildLB k ops) hid v = buildLB k ops) := by
  have hinv := lbInv_buildLB k ops
  refine ⟨?_, ?_, ?_⟩
  · intro v vs hnm
    have hnone : dictGet (buildLB k ops).horseTimes hid = none := by
      rw [dictGet_eq_none_iff, ← hinv.1]
      exact hnm
    have h1 : dictGet (addResult (buildLB k ops) hid v).horseTimes hid = some v :=
      addResult_lookup_new _ hid v hinv hnone
    exact afterAdds_lookup hid vs _ v (lbInv_step _ (.add hid v) hinv) h1
  · intro vs i j hij bi bj hbi hbj
    have hsplit : vs.take j = vs.take i ++ (vs.drop i).take (j - i) := by
      conv_lhs => rw [show j = i + (j - i) from by omega]
      rw [List.take_add]
    rw [hsplit] at hbj
    have hfold : afterAdds (buildLB k ops) hid (vs.take i ++ (vs.drop i).take (j - i))
        = afterAdds (afterAdds (buildLB k ops) hid (vs.take i)) hid ((vs.drop i).take (j - i)) := by
      simp only [afterAdds, List.foldl_append]
    rw [hfold] at hbj
    have hinv' := lbInv_afterAdds (buildLB k ops) hid (vs.take i) hinv
    have := afterAdds_lookup hid ((vs.drop i).take (j - i)) _ bi hinv' hbi
    rw [this] at hbj
    cases hbj
    exact foldl_min_le _ bi
  · exact fun b v hb hle => addResult_noop _ hid v b hinv hb hle

/-- C6 witness: concrete run `65.2, 63, 65.2` for one id ends at best `63`,
prefix bests are non-increasing, and the final equal-value update is a no-op. -/
theorem c6_monotone_best_witness :
    dictGet (afterAdds (buildLB 20 []) "H1" [(652 : ℚ)/10, 63, (652 : ℚ)/10]).horseTimes "H1"
      = some 63 ∧
    addResult (buildLB 20 [.add "H1" 63]) "H1" 63 = buildLB 20 [.add "H1" 63] := by
  constructor
  · have h := (c6_monotone_best 20 [] "H1").1 ((652 : ℚ)/10) [63, (652 : ℚ)/10] (by decide)
    rw [h]
    norm_num
  · exact (c6_monotone_best 20 [.add "H1" 63] "H1").2.2 63 63 (by decide) (le_refl 63)

theorem getTop_none (s : LB) (n : ℕ) (h : s.cachedTop = none) :
    getTopPerformers s n = computeTop s n := by
  simp only [getTopPerformers, h]

theorem rebuild_heap_dirty (s : LB) (h : s.cacheValid = false) :
    (rebuildHeapIfNeeded s).heap = s.horseTimes.map (fun p => (p.2, p.1)) := by
  rw [rebuildHeapIfNeeded, if_neg (by rw [h]; exact Bool.false_ne_true)]

theorem computeTop_fst (s : LB) (n : ℕ) :
    (computeTop s n).1 = (nsmallest n (rebuildHeapIfNeeded s).heap).map (fun p => (p.2, p.1)) :=
  rfl

theorem tupleLe_fst {a b : ℚ × String} (h : tupleLe a b) : a.1 ≤ b.1 := by
  rcases h with h | ⟨h, _⟩
  · exact le_of_lt h
  · exact le_of_eq h

/-- Sorting `(time, id)` tuples lexicographically and projecting the times is
the same as sorting the times. -/
theorem sortLex_map_fst (l : List (ℚ × String)) :
    ((l.insertionSort tupleLe).map Prod.fst) = (l.map Prod.fst).insertionSort (· ≤ ·) := by
  have hperm : ((l.insertionSort tupleLe).map Prod.fst).Perm
      ((l.map Prod.fst).insertionSort (· ≤ ·)) :=
    ((List.perm_insertionSort tupleLe l).map Prod.fst).trans
      (List.perm_insertionSort (· ≤ ·) (l.map Prod.fst)).symm
  have hs1 : ((l.insertionSort tupleLe).map Prod.fst).Sorted (· ≤ ·) :=
    List.Pairwise.map Prod.fst (fun a b h => tupleLe_fst h)
      (List.sorted_insertionSort tupleLe l)
  have hs2 : ((l.map Prod.fst).insertionSort (· ≤ ·)).Sorted (· ≤ ·) :=
    List.sorted_insertionSort (· ≤ ·) (l.map Prod.fst)
  exact List.eq_of_perm_of_sorted hperm hs1 hs2

/-- C7: on any leaderboard reached by `add_result`/`remove_horse` calls,
`get_top_performers(k)` returns exactly the `k` stored entries with the
lowest current best values, in ascending order of value: the value
projection is the `k`-prefix of the sorted value list, the length is
`min k size`, when `k ≥ size` it is a permutation of all stored entries,
and — entry-level, for every `k` — the returned `(id, value)` pairs extend
by a remainder to a permutation of all stored entries with every returned
value at most every omitted one. -/
theorem c7_top_k (k : ℕ) (ops : List LBOp) (n : ℕ) :
    ((getTopPerformers (buildLB k ops) n).1.map Prod.snd
        = (((buildLB k ops).horseTimes.map Prod.snd).insertionSort (· ≤ ·)).take n) ∧
    (getTopPerformers (buildLB k ops) n).1.length
        = min n (buildLB k ops).horseTimes.length ∧
    ((getTopPerformers (buildLB k ops) n).1.map Prod.snd).Sorted (· ≤ ·) ∧
    ((buildLB k ops).horseTimes.length ≤ n →
      (getTopPerformers (buildLB k ops) n).1.Perm (buildLB k ops).horseTimes) ∧
    (∃ rest, ((getTopPerformers (buildLB k ops) n).1 ++ rest).Perm
        (buildLB k ops).horseTimes ∧
      ∀ p ∈ (getTopPerformers (buildLB k ops) n).1, ∀ q ∈ rest, p.2 ≤ q.2) := by
  obtain ⟨h1, h2, h3, h4, h5⟩ := lbInv_buildLB k ops
  rw [getTop_none _ _ h3, computeTop_fst, rebuild_heap_dirty _ h4]
  have hswap : ((buildLB k ops).horseTimes.map (fun p => (p.2, p.1))).map Prod.fst
      = (buildLB k ops).horseTimes.map Prod.snd := by
    simp [List.map_map, Function.comp]
  have hmain : (((buildLB k ops).horseTimes.map (fun p => (p.2, p.1))).insertionSort
        tupleLe).map Prod.fst
      = ((buildLB k ops).horseTimes.map Prod.snd).insertionSort (· ≤ ·) := by
    rw [sortLex_map_fst, hswap]
  refine ⟨?_, ?_, ?_, ?_, ?_⟩
  · simp only [nsmallest, List.map_map]
    have hcomp : (Prod.snd ∘ fun p : ℚ × String => (p.2, p.1)) = Prod.fst := rfl
    rw [hcomp, List.map_take, hmain]
  · simp only [nsmallest, List.length_map, List.length_take]
    rw [(List.perm_insertionSort tupleLe _).length_eq, List.length_map]
  · simp only [nsmallest, List.map_map]
    have hcomp : (Prod.snd ∘ fun p : ℚ × String => (p.2, p.1)) = Prod.fst := rfl
    rw [hcomp, List.map_take, hmain]
    exact List.Pairwise.sublist (List.take_sublist n _)
      (List.sorted_insertionSort (· ≤ ·) _)
  · intro hlen
    simp only [nsmallest]
    rw [List.take_of_length_le]
    · refine ((List.perm_insertionSort tupleLe _).map _).trans ?_
      rw [List.map_map]
      have hcomp2 : ((fun p : ℚ × String => (p.2, p.1)) ∘ fun p : String × ℚ => (p.2, p.1))
          = id := rfl
      rw [hcomp2, List.map_id]
    · rw [(List.perm_insertionSort tupleLe _).length_eq, List.length_map]
      exact hlen
  · refine ⟨(((((buildLB k ops).horseTimes.map (fun p => (p.2, p.1))).insertionSort
        tupleLe).drop n).map (fun p => (p.2, p.1))), ?_, ?_⟩
    · simp only [nsmallest]
      rw [← List.map_append, List.take_append_drop]
      refine ((List.perm_insertionSort tupleLe _).map _).trans ?_
      rw [List.map_map]
      have hcomp2 : ((fun p : ℚ × String => (p.2, p.1)) ∘ fun p : String × ℚ => (p.2, p.1))
          = id := rfl
      rw [hcomp2, List.map_id]
    · intro p hp q hq
      simp only [nsmallest] at hp
      obtain ⟨a, ha, hpa⟩ := List.mem_map.mp hp
      obtain ⟨b, hb, hqb⟩ := List.mem_map.mp hq
      have hsorted : List.Pairwise tupleLe
          (((((buildLB k ops).horseTimes.map (fun p => (p.2, p.1))).insertionSort
              tupleLe).take n)
            ++ ((((buildLB k ops).horseTimes.map (fun p => (p.2, p.1))).insertionSort
              tupleLe).drop n)) := by
        rw [List.take_append_drop]
        exact List.sorted_insertionSort tupleLe _
      have hcross := (List.pairwise_append.mp hsorted).2.2 a ha b hb
      rw [← hpa, ← hqb]
      exact tupleLe_fst hcross

/-- C7 witness: with three entries and `k = 5 > size`, `get_top_performers`
returns all entries. -/
theorem c7_top_k_witness :
    (getTopPerformers (buildLB 20 [.add "H1" 65, .add "H2" 63, .add "H3" 67]) 5).1.Perm
      (buildLB 20 [.add "H1" 65, .add "H2" 63, .add "H3" 67]).horseTimes :=
  (c7_top_k 20 [.add "H1" 65, .add "H2" 63, .add "H3" 67] 5).2.2.2.1 (by decide)

inductive Val where
  | str (s : String)
  | int (n : ℤ)
deriving DecidableEq, Repr

/-- A record: Python `Dict[str, Any]` of attribute values. -/
abbrev AttrMap := List (String × Val)

structure CEntry where
  key : String
  val : AttrMap
  putTime : ℕ
  lastUse : ℕ
deriving DecidableEq, Repr

/-- `LRUCache`: `entries` is the `OrderedDict` front-to-back (front = least
recently used); `putTime` is the `timestamps` dict. -/
structure LRU where
  maxSize : ℕ
  ttl : ℕ
  clock : ℕ
  entries : List CEntry
deriving DecidableEq, Repr

/-- `LRUCache.get`: miss on absent key; an entry older than `ttl` is removed
and reported as a miss; a live hit is moved to the back (most recent). -/
def cacheGet (c : LRU) (k : String) (now : ℕ) : Option AttrMap × LRU :=
  match c.entries.find? (fun e => e.key == k) with
  | none => (none, c)
  | some e =>
    if c.ttl < now - e.putTime then
      (none, { c with entries := c.entries.filter (fun e2 => e2.key != k) })
    else
      (some e.val,
        { c with clock := c.clock + 1,
                 entries := c.entries.filter (fun e2 => e2.key != k)
                   ++ [{ e with lastUse := c.clock }] })

/-- `LRUCache.put`: an existing key is moved to the back and overwritten;
otherwise, at capacity, the front (least recently used) entry is evicted;
the new binding is appended with a fresh timestamp. -/
def cachePut (c : LRU) (k : String) (v : AttrMap) (now : ℕ) : LRU :=
  let c1 :=
    if (c.entries.find? (fun e => e.key == k)).isSome then
      { c with entries := c.entries.filter (fun e => e.key != k) }
    else if c.maxSize ≤ c.entries.length then
      { c with entries := c.entries.drop 1 }
    else c
  { c1 with clock := c1.clock + 1, entries := c1.entries ++ [⟨k, v, now, c1.clock⟩] }

/-- `LRUCache._remove`. -/
def cacheRemove (c : LRU) (k : String) : LRU :=
  { c with entries := c.entries.filter (fun e => e.key != k) }

/-- Python `round(x, 2)` on an exact rational: round half to even at two
decimal places. -/
def round2 (q : ℚ) : ℚ :=
  let x := q * 100
  let n := ⌊x⌋
  let r := x - n
  (if r < 1/2 then (n : ℚ)
   else if 1/2 < r then (n : ℚ) + 1
   else if n % 2 = 0 then (n : ℚ) else (n : ℚ) + 1) / 100

/-- Python `set.add`. -/
def setAdd (l : List String) (x : String) : List String :=
  if x ∈ l then l else l ++ [x]

/-- Python `set.discard`. -/
def setDiscard (l : List String) (x : String) : List String :=
  l.filter (fun y => y != x)

/-- `index.setdefault(key, set()).add(hid)` as written in `_update_indexes`. -/
def idxAdd {κ : Type} [DecidableEq κ] (idx : List (κ × List String)) (key : κ)
    (hid : String) : List (κ × List String) :=
  match dictGet idx key with
  | none => dictSet idx key [hid]
  | some bucket => dictSet idx key (setAdd bucket hid)

/-- `_remove_from_indexes` per index: discard the id, delete an emptied
bucket. -/
def idxDiscard {κ : Type} [DecidableEq κ] (idx : List (κ × List String)) (key : κ)
    (hid : String) : List (κ × List String) :=
  match dictGet idx key with
  | none => idx
  | some bucket =>
    let b2 := setDiscard bucket hid
    if b2.isEmpty then dictDel idx key else dictSet idx key b2

structure Store where
  db : List (String × AttrMap)
  cache : LRU
  jockeyIndex : List (Val × List String)
  ageIndex : List (Val × List String)
  ratioIndex : List (ℚ × List String)
deriving DecidableEq, Repr

/-- `OptimizedHorseDatabase.__init__(cache_size)` with indexing enabled (the
default). -/
def initStore (cacheSize ttl : ℕ) : Store := ⟨[], ⟨cacheSize, ttl, 0, []⟩, [], [], []⟩

/-- The win-ratio index key: present when `wins` and `races` are numeric and
`races > 0` (non-numeric values would raise in Python and are not modelled). -/
def ratioKey (data : AttrMap) : Option ℚ :=
  match dictGet data "wins", dictGet data "races" with
  | some (.int w), some (.int ra) =>
    if 0 < ra then some (round2 ((w : ℚ) / (ra : ℚ))) else none
  | _, _ => none

/-- `_update_indexes`. -/
def updateIndexes (s : Store) (hid : String) (data : AttrMap) : Store :=
  let s1 := match dictGet data "jockey" with
    | none => s
    | some j => { s with jockeyIndex := idxAdd s.jockeyIndex j hid }
  let s2 := match dictGet data "age" with
    | none => s1
    | some a => { s1 with ageIndex := idxAdd s1.ageIndex a hid }
  match ratioKey data with
  | none => s2
  | some q => { s2 with ratioIndex := idxAdd s2.ratioIndex q hid }

/-- `_remove_from_indexes`. -/
def removeFromIndexes (s : Store) (hid : String) (data : AttrMap) : Store :=
  let s1 := match dictGet data "jockey" with
    | none => s
    | some j => { s with jockeyIndex := idxDiscard s.jockeyIndex j hid }
  let s2 := match dictGet data "age" with
    | none => s1
    | some a => { s1 with ageIndex := idxDiscard s1.ageIndex a hid }
  match ratioKey data with
  | none => s2
  | some q => { s2 with ratioIndex := idxDiscard s2.ratioIndex q hid }

/-- `add_horse`: store a copy in `db`, refresh the cache, update the indexes
(which never removes stale entries for a replaced record). -/
def addHorse (s : Store) (hid : String) (data : AttrMap) (now : ℕ) : Store :=
  updateIndexes
    { s with db := dictSet s.db hid data, cache := cachePut s.cache hid data now }
    hid data

/-- `get_horse`: cache first; on a miss read the backing dict and, when the
id exists, repopulate the cache. -/
def getHorse (s : Store) (hid : String) (now : ℕ) : Option AttrMap × Store :=
  match cacheGet s.cache hid now with
  | (some v, c2) => (some v, { s with cache := c2 })
  | (none, c2) =>
    match dictGet s.db hid with
    | some v => (some v, { s with cache := cachePut c2 hid v now })
    | none => (none, { s with cache := c2 })

/-- `update_performance`: merge the new fields (`dict.update`), refresh the
cache, and re-derive the indexes (old entries removed first). -/
def updatePerformance (s : Store) (hid : String) (newData : AttrMap) (now : ℕ) :
    Store × Bool :=
  match dictGet s.db hid with
  | none => (s, false)
  | some old =>
    let updated := newData.foldl (fun acc p => dictSet acc p.1 p.2) old
    let s1 := { s with db := dictSet s.db hid updated,
                       cache := cachePut s.cache hid updated now }
    (updateIndexes (removeFromIndexes s1 hid old) hid updated, true)

/-- `remove_horse`: delete from `db`, the cache, and the indexes (based on
the record's current attribute values). -/
def removeHorse (s : Store) (hid : String) : Store × Bool :=
  match dictGet s.db hid with
  | none => (s, false)
  | some old =>
    let s1 := { s with db := dictDel s.db hid, cache := cacheRemove s.cache hid }
    (removeFromIndexes s1 hid old, true)

/-- `find_horses_by_jockey` via the secondary index. -/
def findHorsesByJockey (s : Store) (j : Val) : List String :=
  (dictGet s.jockeyIndex j).getD []

inductive StoreOp where
  | add (hid : String) (data : AttrMap) (now : ℕ)
  | upd (hid : String) (data : AttrMap) (now : ℕ)
  | del (hid : String)
  | get (hid : String) (now : ℕ)

def storeStep (s : Store) : StoreOp → Store
  | .add hid d now => addHorse s hid d now
  | .upd hid d now => (updatePerformance s hid d now).1
  | .del hid => (removeHorse s hid).1
  | .get hid now => (getHorse s hid now).2

/-- A store reached from a fresh database by any sequence of insert, update,
remove and get calls. -/
def runStore (cacheSize ttl : ℕ) (ops : List StoreOp) : Store :=
  ops.foldl storeStep (initStore cacheSize ttl)

/-- Every cached entry mirrors the backing dict. -/
def Coherent (db : List (String × AttrMap)) (c : LRU) : Prop :=
  ∀ e ∈ c.entries, dictGet db e.key = some e.val

/-- Cache well-formedness: unique keys, entries ordered by strictly
increasing last use, all last uses before the current clock tick. -/
def CacheInv (c : LRU) : Prop :=
  (c.entries.map CEntry.key).Nodup ∧
  ((c.entries.map CEntry.lastUse).Sorted (· < ·)) ∧
  ∀ e ∈ c.entries, e.lastUse < c.clock

def StoreInv (s : Store) : Prop := Coherent s.db s.cache ∧ CacheInv s.cache

theorem filter_key_not_mem (entries : List CEntry) (k : String) :
    k ∉ ((entries.filter (fun e => e.key != k)).map CEntry.key) := by
  intro hc
  obtain ⟨e, he, hk⟩ := List.mem_map.mp hc
  have := List.of_mem_filter he
  rw [hk] at this
  simp at this

theorem find?_key_eq_none {entries : List CEntry} {k : String}
    (h : k ∉ entries.map CEntry.key) :
    entries.find? (fun e => e.key == k) = none := by
  rw [List.find?_eq_none]
  intro e he hc
  exact h (List.mem_map.mpr ⟨e, he, by simpa using hc⟩)

theorem cacheInv_sub (c : LRU) (l : List CEntry) (n : ℕ) (hsub : l.Sublist c.entries)
    (hn : c.clock ≤ n) (hinv : CacheInv c) :
    CacheInv { c with clock := n, entries := l } := by
  obtain ⟨h1, h2, h3⟩ := hinv
  exact ⟨h1.sublist (hsub.map CEntry.key),
    List.Pairwise.sublist (hsub.map CEntry.lastUse) h2,
    fun e he => lt_of_lt_of_le (h3 e (hsub.mem he)) hn⟩

/-- Appending one entry stamped with the current clock, after restricting to
a sublist not containing its key, preserves the cache invariant. -/
theorem cacheInv_extend (c : LRU) (l : List CEntry) (e : CEntry)
    (hsub : l.Sublist c.entries) (hk : e.key ∉ l.map CEntry.key)
    (hl : e.lastUse = c.clock) (hinv : CacheInv c) :
    CacheInv { c with clock := c.clock + 1, entries := l ++ [e] } := by
  obtain ⟨h1, h2, h3⟩ := hinv
  refine ⟨?_, ?_, ?_⟩
  · rw [List.map_append]
    rw [List.nodup_append]
    refine ⟨h1.sublist (hsub.map CEntry.key), by simp, ?_⟩
    intro a ha hc
    rw [List.map_singleton, List.mem_singleton] at hc
    exact hk (hc ▸ ha)
  · rw [List.map_append]
    show List.Pairwise _ _
    rw [List.pairwise_append]
    refine ⟨List.Pairwise.sublist (hsub.map CEntry.lastUse) h2, by simp, ?_⟩
    intro a ha b hb
    rw [List.map_singleton, List.mem_singleton] at hb
    obtain ⟨e1, he1, hea⟩ := List.mem_map.mp ha
    rw [hb, hl, ← hea]
    exact h3 e1 (hsub.mem he1)
  · intro e2 he2
    have he2b : e2 ∈ l ++ [e] := he2
    show e2.lastUse < c.clock + 1
    rcases List.mem_append.mp he2b with h | h
    · exact lt_trans (h3 e2 (hsub.mem h)) (by omega)
    · rw [List.mem_singleton] at h
      subst h
      rw [hl]
      omega

/-- `cachePut` always produces: a sublist of the old entries free of the new
key, followed by the fresh entry; the clock advances by one tick. -/
theorem cachePut_shape (c : LRU) (k : String) (v : AttrMap) (now : ℕ) :
    ∃ l, l.Sublist c.entries ∧ (∀ e ∈ l, e.key ≠ k) ∧
      (cachePut c k v now).entries = l ++ [⟨k, v, now, c.clock⟩] ∧
      (cachePut c k v now).clock = c.clock + 1 := by
  unfold cachePut
  by_cases hfind : (c.entries.find? (fun e => e.key == k)).isSome = true
  · refine ⟨c.entries.filter (fun e => e.key != k), List.filter_sublist _, ?_, ?_, ?_⟩
    · intro e he
      have := List.of_mem_filter he
      simpa using this
    · simp only [hfind, if_true]
    · simp only [hfind, if_true]
  · have hnone : c.entries.find? (fun e => e.key == k) = none := by
      rcases hf : c.entries.find? (fun e => e.key == k) with _ | e
      · exact hf
      · rw [hf] at hfind
        simp at hfind
    have hkeys : ∀ e ∈ c.entries, e.key ≠ k := by
      intro e he hc
      rw [List.find?_eq_none] at hnone
      exact hnone e he (by simpa using hc)
    by_cases hfull : c.maxSize ≤ c.entries.length
    · refine ⟨c.entries.drop 1, List.drop_sublist 1 _, ?_, ?_, ?_⟩
      · exact fun e he => hkeys e ((List.drop_sublist 1 _).mem he)
      · simp only [hnone, Option.isSome_none, Bool.false_eq_true, if_false, hfull, if_true]
      · simp only [hnone, Option.isSome_none, Bool.false_eq_true, if_false, hfull, if_true]
    · refine ⟨c.entries, List.Sublist.refl _, hkeys, ?_, ?_⟩
      · simp only [hnone, Option.isSome_none, Bool.false_eq_true, if_false, hfull]
      · simp only [hnone, Option.isSome_none, Bool.false_eq_true, if_false, hfull]

theorem cachePut_inv (c : LRU) (k : String) (v : AttrMap) (now : ℕ)
    (hinv : CacheInv c) : CacheInv (cachePut c k v now) := by
  obtain ⟨l, hsub, hne, hent, hclk⟩ := cachePut_shape c k v now
  have h := cacheInv_extend c l ⟨k, v, now, c.clock⟩ hsub
    (fun hc => by
      obtain ⟨e, he, hk⟩ := List.mem_map.mp hc
      exact hne e he hk) rfl hinv
  rcases hc2 : cachePut c k v now with ⟨ms, ttl, clk, ents⟩
  rw [hc2] at hent hclk
  simp only at hent hclk
  obtain ⟨g1, g2, g3⟩ := h
  refine ⟨?_, ?_, ?_⟩
  · simpa [hent] using g1
  · simpa [hent] using g2
  · intro e he
    rw [hclk]
    simp only [hent] at he
    exact g3 e he

theorem coherent_cachePut (db : List (String × AttrMap)) (c : LRU) (k : String)
    (v : AttrMap) (now : ℕ)
    (hold : ∀ e ∈ c.entries, e.key ≠ k → dictGet db e.key = some e.val)
    (hnew : dictGet db k = some v) : Coherent db (cachePut c k v now) := by
  obtain ⟨l, hsub, hne, hent, _⟩ := cachePut_shape c k v now
  intro e he
  rw [hent] at he
  rcases List.mem_append.mp he with h | h
  · exact hold e (hsub.mem h) (hne e h)
  · rw [List.mem_singleton] at h
    subst h
    exact hnew

theorem cacheGet_miss (c : LRU) (k : String) (now : ℕ)
    (h : c.entries.find? (fun e => e.key == k) = none) :
    cacheGet c k now = (none, c) := by
  simp only [cacheGet, h]

theorem cacheGet_expired (c : LRU) (k : String) (now : ℕ) (e : CEntry)
    (h : c.entries.find? (fun e => e.key == k) = some e)
    (ht : c.ttl < now - e.putTime) :
    cacheGet c k now
      = (none, { c with entries := c.entries.filter (fun e2 => e2.key != k) }) := by
  simp only [cacheGet, h, ht, if_true]

theorem cacheGet_live (c : LRU) (k : String) (now : ℕ) (e : CEntry)
    (h : c.entries.find? (fun e => e.key == k) = some e)
    (ht : ¬c.ttl < now - e.putTime) :
    cacheGet c k now
      = (some e.val,
          { c with clock := c.clock + 1,
                   entries := c.entries.filter (fun e2 => e2.key != k)
                     ++ [{ e with lastUse := c.clock }] }) := by
  simp only [cacheGet, h, ht, if_false]

theorem cacheGet_inv (c : LRU) (k : String) (now : ℕ) (hci : CacheInv c) :
    CacheInv (cacheGet c k now).2 := by
  rcases hfind : c.entries.find? (fun e => e.key == k) with _ | e
  · rw [cacheGet_miss c k now hfind]
    exact hci
  · have hkey : e.key = k := by simpa using List.find?_some hfind
    by_cases httl : c.ttl < now - e.putTime
    · rw [cacheGet_expired c k now e hfind httl]
      exact cacheInv_sub c _ c.clock (List.filter_sublist _) (le_refl _) hci
    · rw [cacheGet_live c k now e hfind httl]
      refine cacheInv_extend c _ _ (List.filter_sublist _) ?_ rfl hci
      show e.key ∉ _
      rw [hkey]
      exact filter_key_not_mem c.entries k

theorem coherent_cacheGet (db : List (String × AttrMap)) (c : LRU) (k : String)
    (now : ℕ) (hco : Coherent db c) : Coherent db (cacheGet c k now).2 := by
  rcases hfind : c.entries.find? (fun e => e.key == k) with _ | e
  · rw [cacheGet_miss c k now hfind]
    exact hco
  · have hmem : e ∈ c.entries := List.mem_of_find?_eq_some hfind
    by_cases httl : c.ttl < now - e.putTime
    · rw [cacheGet_expired c k now e hfind httl]
      intro e2 he2
      exact hco e2 (List.mem_of_mem_filter he2)
    · rw [cacheGet_live c k now e hfind httl]
      intro e2 he2
      rcases List.mem_append.mp he2 with h | h
      · exact hco e2 (List.mem_of_mem_filter h)
      · rw [List.mem_singleton] at h
        subst h
        exact hco e hmem

theorem dictGet_del {α β : Type} [DecidableEq α] (l : List (α × β)) (k k' : α) :
    dictGet (dictDel l k) k' = if k = k' then none else dictGet l k' := by
  induction l with
  | nil =>
    simp only [dictDel, dictGet]
    split <;> rfl
  | cons p rest ih =>
    obtain ⟨pk, pv⟩ := p
    by_cases h1 : pk = k
    · subst h1
      by_cases h2 : pk = k'
      · subst h2
        simp [dictDel, dictGet, ih]
      · simp [dictDel, dictGet, h2, ih]
    · by_cases h2 : pk = k'
      · subst h2
        have hkk : ¬k = pk := fun hc => h1 hc.symm
        simp [dictDel, dictGet, h1, hkk]
      · simp [dictDel, dictGet, h1, h2, ih]

theorem updateIndexes_db (s : Store) (hid : String) (data : AttrMap) :
    (updateIndexes s hid data).db = s.db := by
  unfold updateIndexes
  rcases dictGet data "jockey" with _ | j <;> rcases dictGet data "age" with _ | a <;>
    rcases ratioKey data with _ | q <;> rfl

theorem updateIndexes_cache (s : Store) (hid : String) (data : AttrMap) :
    (updateIndexes s hid data).cache = s.cache := by
  unfold updateIndexes
  rcases dictGet data "jockey" with _ | j <;> rcases dictGet data "age" with _ | a <;>
    rcases ratioKey data with _ | q <;> rfl

theorem removeFromIndexes_db (s : Store) (hid : String) (data : AttrMap) :
    (removeFromIndexes s hid data).db = s.db := by
  unfold removeFromIndexes
  rcases dictGet data "jockey" with _ | j <;> rcases dictGet data "age" with _ | a <;>
    rcases ratioKey data with _ | q <;> rfl

theorem removeFromIndexes_cache (s : Store) (hid : String) (data : AttrMap) :
    (removeFromIndexes s hid data).cache = s.cache := by
  unfold removeFromIndexes
  rcases dictGet data "jockey" with _ | j <;> rcases dictGet data "age" with _ | a <;>
    rcases ratioKey data with _ | q <;> rfl

theorem storeInv_get (s : Store) (hid : String) (now : ℕ) (hinv : StoreInv s) :
    StoreInv (getHorse s hid now).2 := by
  obtain ⟨hco, hci⟩ := hinv
  have hco2 := coherent_cacheGet s.db s.cache hid now hco
  have hci2 := cacheGet_inv s.cache hid now hci
  rcases hfind : s.cache.entries.find? (fun e => e.key == hid) with _ | e
  · have h1 := cacheGet_miss s.cache hid now hfind
    rw [h1] at hco2 hci2
    rcases hdb : dictGet s.db hid with _ | v
    · simp only [getHorse, h1, hdb]
      exact ⟨hco2, hci2⟩
    · simp only [getHorse, h1, hdb]
      refine ⟨?_, ?_⟩
      · show Coherent s.db (cachePut s.cache hid v now)
        exact coherent_cachePut _ _ _ _ _ (fun e2 he2 _ => hco2 e2 he2) hdb
      · show CacheInv (cachePut s.cache hid v now)
        exact cachePut_inv _ _ _ _ hci2
  · by_cases httl : s.cache.ttl < now - e.putTime
    · have h1 := cacheGet_expired s.cache hid now e hfind httl
      rw [h1] at hco2 hci2
      rcases hdb : dictGet s.db hid with _ | v
      · simp only [getHorse, h1, hdb]
        exact ⟨hco2, hci2⟩
      · simp only [getHorse, h1, hdb]
        refine ⟨?_, ?_⟩
        · show Coherent s.db (cachePut _ hid v now)
          exact coherent_cachePut _ _ _ _ _ (fun e2 he2 _ => hco2 e2 he2) hdb
        · show CacheInv (cachePut _ hid v now)
          exact cachePut_inv _ _ _ _ hci2
    · have h1 := cacheGet_live s.cache hid now e hfind httl
      rw [h1] at hco2 hci2
      simp only [getHorse, h1]
      exact ⟨hco2, hci2⟩

/-- All four public operations preserve cache/store coherence and the cache
invariant. -/
theorem storeInv_step (s : Store) (op : StoreOp) (hinv : StoreInv s) :
    StoreInv (storeStep s op) := by
  obtain ⟨hco, hci⟩ := hinv
  cases op with
  | add hid d now =>
    simp only [storeStep, addHorse]
    constructor
    · show Coherent (updateIndexes _ hid d).db (updateIndexes _ hid d).cache
      rw [updateIndexes_db, updateIndexes_cache]
      refine coherent_cachePut _ _ _ _ _ ?_ ?_
      · intro e he hne
        rw [dictGet_set, if_neg (fun hc => hne hc.symm)]
        exact hco e he
      · rw [dictGet_set, if_pos rfl]
    · show CacheInv (updateIndexes _ hid d).cache
      rw [updateIndexes_cache]
      exact cachePut_inv _ _ _ _ hci
  | upd hid d now =>
    simp only [storeStep, updatePerformance]
    rcases hdb : dictGet s.db hid with _ | old
    · exact ⟨hco, hci⟩
    · simp only
      constructor
      · show Coherent (updateIndexes _ hid _).db (updateIndexes _ hid _).cache
        rw [updateIndexes_db, updateIndexes_cache, removeFromIndexes_db,
          removeFromIndexes_cache]
        refine coherent_cachePut _ _ _ _ _ ?_ ?_
        · intro e he hne
          rw [dictGet_set, if_neg (fun hc => hne hc.symm)]
          exact hco e he
        · rw [dictGet_set, if_pos rfl]
      · show CacheInv (updateIndexes _ hid _).cache
        rw [updateIndexes_cache, removeFromIndexes_cache]
        exact cachePut_inv _ _ _ _ hci
  | del hid =>
    simp only [storeStep, removeHorse]
    rcases hdb : dictGet s.db hid with _ | old
    · exact ⟨hco, hci⟩
    · simp only
      constructor
      · show Coherent (removeFromIndexes _ hid old).db (removeFromIndexes _ hid old).cache
        rw [removeFromIndexes_db, removeFromIndexes_cache]
        intro e he
        have hne : e.key ≠ hid := by
          have := List.of_mem_filter he
          simpa using this
        rw [dictGet_del, if_neg (fun hc => hne hc.symm)]
        exact hco e (List.mem_of_mem_filter he)
      · show CacheInv (removeFromIndexes _ hid old).cache
        rw [removeFromIndexes_cache]
        exact cacheInv_sub s.cache _ s.cache.clock (List.filter_sublist _) (le_refl _) hci
  | get hid now => exact storeInv_get s hid now ⟨hco, hci⟩

theorem storeInv_run (cacheSize ttl : ℕ) (ops : List StoreOp) :
    StoreInv (runStore cacheSize ttl ops) := by
  suffices h : ∀ s, StoreInv s → StoreInv (ops.foldl storeStep s) from
    h (initStore cacheSize ttl) ⟨fun e he => absurd he (List.not_mem_nil e),
      List.nodup_nil, List.sorted_nil, fun e he => absurd he (List.not_mem_nil e)⟩
  induction ops with
  | nil => exact fun s hs => hs
  | cons op rest ih => exact fun s hs => ih _ (storeInv_step s op hs)

/-- `get_horse` answers exactly the backing dict on every path (hit, expired
entry, miss with repopulation, miss on an absent id). -/
theorem getHorse_correct (s : Store) (hid : String) (now : ℕ) (hinv : StoreInv s) :
    (getHorse s hid now).1 = dictGet s.db hid := by
  obtain ⟨hco, _⟩ := hinv
  rcases hfind : s.cache.entries.find? (fun e => e.key == hid) with _ | e
  · have h1 := cacheGet_miss s.cache hid now hfind
    rcases hdb : dictGet s.db hid with _ | v <;> simp only [getHorse, h1, hdb]
  · have hkey : e.key = hid := by simpa using List.find?_some hfind
    have hmem : e ∈ s.cache.entries := List.mem_of_find?_eq_some hfind
    by_cases httl : s.cache.ttl < now - e.putTime
    · have h1 := cacheGet_expired s.cache hid now e hfind httl
      rcases hdb : dictGet s.db hid with _ | v <;> simp only [getHorse, h1, hdb]
    · have h1 := cacheGet_live s.cache hid now e hfind httl
      simp only [getHorse, h1]
      have h2 := hco e hmem
      rw [hkey] at h2
      rw [h2]

/-- On a full cache, `put` of a new key drops exactly the front entry —
which, by the recency invariant, was used (got or put) strictly earlier than
every other cached entry — before appending the new one. -/
theorem cachePut_evicts_lru (c : LRU) (k : String) (v : AttrMap) (t : ℕ)
    (hci : CacheInv c) (hnk : k ∉ c.entries.map CEntry.key)
    (hfull : c.maxSize ≤ c.entries.length)
    (e0 : CEntry) (rest : List CEntry) (hent : c.entries = e0 :: rest) :
    (cachePut c k v t).entries = rest ++ [⟨k, v, t, c.clock⟩] ∧
    ∀ e ∈ rest, e0.lastUse < e.lastUse := by
  have hnone : c.entries.find? (fun e => e.key == k) = none := find?_key_eq_none hnk
  constructor
  · unfold cachePut
    rw [hent] at hnone hfull ⊢
    simp only [hnone, Option.isSome_none, Bool.false_eq_true, if_false, hfull, if_true,
      List.drop_one, List.tail_cons]
  · obtain ⟨_, hsort, _⟩ := hci
    rw [hent, List.map_cons] at hsort
    intro e he
    exact (List.pairwise_cons.mp hsort).1 e.lastUse (List.mem_map.mpr ⟨e, he, rfl⟩)

/-- C4: after any sequence of insert/update/remove/get operations, `get_horse`
returns exactly the record of the backing dict (the latest inserted/updated
one, or `None` after removal) on every cache path; and a `put` of a new key
into a full cache first evicts the least-recently-used entry (front of the
recency order, where "used" means get or put). -/
theorem c4_cache_coherence (cacheSize ttl : ℕ) (ops : List StoreOp) :
    (∀ (hid : String) (now : ℕ),
      (getHorse (runStore cacheSize ttl ops) hid now).1
        = dictGet (runStore cacheSize ttl ops).db hid) ∧
    (∀ (k : String) (v : AttrMap) (t : ℕ) (e0 : CEntry) (rest : List CEntry),
      k ∉ (runStore cacheSize ttl ops).cache.entries.map CEntry.key →
      (runStore cacheSize ttl ops).cache.maxSize
        ≤ (runStore cacheSize ttl ops).cache.entries.length →
      (runStore cacheSize ttl ops).cache.entries = e0 :: rest →
      (cachePut (runStore cacheSize ttl ops).cache k v t).entries
          = rest ++ [⟨k, v, t, (runStore cacheSize ttl ops).cache.clock⟩] ∧
      ∀ e ∈ rest, e0.lastUse < e.lastUse) := by
  have hinv := storeInv_run cacheSize ttl ops
  exact ⟨fun hid now => getHorse_correct _ hid now hinv,
    fun k v t e0 rest hnk hfull hent =>
      cachePut_evicts_lru _ k v t hinv.2 hnk hfull e0 rest hent⟩

/-- C4 witness: with `cache_size = 1` and one cached record, putting a second
id evicts the only (least recently used) entry and appends the new one. -/
theorem c4_cache_coherence_witness :
    (getHorse (runStore 1 300 [.add "H1" [] 0]) "H1" 5).1
        = dictGet (runStore 1 300 [.add "H1" [] 0]).db "H1" ∧
    (cachePut (runStore 1 300 [.add "H1" [] 0]).cache "H2" [] 7).entries
        = [] ++ [⟨"H2", [], 7, (runStore 1 300 [.add "H1" [] 0]).cache.clock⟩] :=
  ⟨(c4_cache_coherence 1 300 [.add "H1" [] 0]).1 "H1" 5,
    ((c4_cache_coherence 1 300 [.add "H1" [] 0]).2 "H2" [] 7 ⟨"H1", [], 0, 0⟩ []
      (by decide) (by decide) (by decide)).1⟩

def c5StoreA : Store := addHorse (initStore 1000 300) "H1" [("jockey", .str "Smith")] 0

def c5StoreB : Store := addHorse c5StoreA "H1" [("jockey", .str "Jones")] 1

/-- C5, failing input: re-inserting `H1` with a different jockey leaves the
stale `Smith → H1` index entry in place (`add_horse` never removes old index
entries), so the index still answers `H1` for `Smith` — and even after
`remove_horse`, which cleans only the current attribute values, the stale
entry survives. -/
theorem c5_stale_index_after_replace :
    dictGet c5StoreB.db "H1" = some [("jockey", Val.str "Jones")] ∧
    findHorsesByJockey c5StoreB (Val.str "Smith") = ["H1"] ∧
    findHorsesByJockey c5StoreB (Val.str "Jones") = ["H1"] ∧
    findHorsesByJockey (removeHorse c5StoreB "H1").1 (Val.str "Smith") = ["H1"] := by
  refine ⟨?_, ?_, ?_, ?_⟩ <;> rfl

end MSCS532
